import Mathlib

/-!
# Next-fit free-space manager

A shallow embedding of `NextFit.cpp`: an address-ordered free list with a
next-fit cursor, in-place splitting and coalescing on release.

Modelling conventions.

* The doubly linked chain `head, head->next, ...` is the list `Freelist.nodes`;
  `prev`/`next` are the neighbours in that list and `head` is its first element.
* A `Freenode*` is the address of a heap cell.  Every cell carries its own
  address in the field `ptr`, `new Freenode` takes the next unused address
  `Freelist.fresh`, and `delete` removes the cell from the chain.
* C++ `int` values are integers (`Int`).  `sizeof(Header)` is `12` (three 4-byte
  `int` fields), and `x + sizeof(Header)` is an addition in `size_t` whose result
  is narrowed back to a 32-bit `int`: that conversion is `toInt`.  The signed
  additions and subtractions on the fields of a cell (whose overflow the language
  leaves undefined) are the integer operations.
* `delete` ends a cell.  Where the source reads a field of a cell it has deleted
  (the cursor test at the end of `insertNode`, when the cursor's cell was merged
  away), the program does not fix the value read; the model takes the test to
  fail, so the cursor stays on the deleted cell.
* The headers that `alloc` returns belong to the caller.  `Sys` pairs the
  allocator with the headers handed out and not yet freed, and `run` executes a
  sequence of `alloc` and `free` calls on it.
-/

namespace NextFit

/-- Address of a heap cell, the value of a `Freenode*`. -/
abbrev Ptr := Nat

/-- A free region `[addr, addr + size)`, stored in the heap cell at address `ptr`. -/
structure Freenode where
  ptr : Ptr
  addr : Int
  size : Int
deriving DecidableEq

/-- The free list: the chain of cells reachable from `head`, the next-fit cursor
`last_searched`, the counter `length`, and the supply `fresh` of unused cell
addresses used by `new Freenode`. -/
structure Freelist where
  nodes : List Freenode
  last_searched : Option Ptr
  length : Int
  fresh : Ptr
deriving DecidableEq

/-- Metadata of one allocation. -/
structure Header where
  hdptr : Int
  allocptr : Int
  size : Int
deriving DecidableEq

/-- The allocator: the managed range and its free list. -/
structure Allocator where
  base : Int
  size : Int
  free_list : Freelist
deriving DecidableEq

/-- The constant `sizeof(Header)`. -/
def HEADER_SIZE : Int := 12

/-- The largest `int`. -/
def INT_MAX : Int := 2147483647

/-- The `int` that receives a sum formed in `size_t`, as in
`int size_with_header = size + sizeof(Header)`: the sum modulo `2^32`, read as a
32-bit two's complement number. -/
def toInt (x : Int) : Int :=
  (x + 2147483648) % 4294967296 - 2147483648

/-- The pointer `list.head`. -/
def Freelist.head (list : Freelist) : Option Ptr :=
  list.nodes.head?.map Freenode.ptr

/-- The (address, size) pairs of the regions, read from `head` along `next`. -/
def Freelist.regions (list : Freelist) : List (Int × Int) :=
  list.nodes.map (fun c => (c.addr, c.size))

/-- Source `init_freelist`: one cell spanning the range, cursor unset, count one. -/
def init_freelist (base size : Int) : Freelist :=
  { nodes := [{ ptr := 0, addr := base, size := size }]
    last_searched := none
    length := 1
    fresh := 1 }

/-- Source `init_header` (never called by `alloc`). -/
def init_header (hdptr size : Int) : Header :=
  { hdptr := hdptr, allocptr := toInt (hdptr + HEADER_SIZE), size := size }

/-- Source `init_allocator`. -/
def init_allocator (base size : Int) : Allocator :=
  { base := base, size := size, free_list := init_freelist base size }

/-- Position in the chain of the cell at address `p` (the chain length when no
cell of the chain has that address). -/
def indexOfPtr (nodes : List Freenode) (p : Ptr) : Nat :=
  nodes.findIdx (fun c => c.ptr == p)

/-- The `do ... while (current != start)` loop of `search`, one iteration per
unit of fuel.  `current` and `start` are positions in the chain.  The result is
`none` when the fuel runs out (or `current` is no cell of the chain),
`some none` when the loop exits through its `while` test, and `some (some c)`
when it returns the cell `c`. -/
def searchLoop (nodes : List Freenode) (size_requested : Int) (start : Nat) :
    Nat → Nat → Option (Option Freenode)
  | 0, _ => none
  | fuel + 1, current =>
    match nodes[current]? with
    | none => none
    | some c =>
      if c.size ≥ size_requested then some (some c)
      else
        -- current = current->next; if (!current) current = list.head;
        let next := if current + 1 < nodes.length then current + 1 else 0
        if next = start then some none
        else searchLoop nodes size_requested start fuel next

/-- The scan of `search` from the cell at address `cursor`, with one unit of
fuel per cell of the chain. -/
def searchFrom (nodes : List Freenode) (size_requested : Int) (cursor : Ptr) :
    Option (Option Freenode) :=
  searchLoop nodes size_requested (indexOfPtr nodes cursor) nodes.length
    (indexOfPtr nodes cursor)

/-- Source `search`.  Returns the list (whose cursor may have moved) and the
cell found, if any.  When the cursor points to no cell of the chain (the source
would then read a deleted cell) the scan yields nothing and the model returns
NULL. -/
def search (list : Freelist) (size_requested : Int) : Freelist × Option Freenode :=
  match list.nodes with
  | [] => (list, none)
  | h :: _ =>
    -- if (list.last_searched == NULL) list.last_searched = list.head;
    let cursor : Ptr := list.last_searched.getD h.ptr
    match searchFrom list.nodes size_requested cursor with
    | some (some c) => ({ list with last_searched := some c.ptr }, some c)
    | _ => ({ list with last_searched := some cursor }, none)

/-- Source `removeNode`: unlink the cell at `node`, clear the cursor if it
pointed there, decrement the count. -/
def removeNode (list : Freelist) (node : Ptr) : Freelist :=
  { list with
    nodes := list.nodes.eraseP (fun c => c.ptr == node)
    last_searched := if list.last_searched = some node then none else list.last_searched
    length := list.length - 1 }

/-- The in-place shrink of `split` (`node->addr += size_requested;
node->size -= size_requested;`), applied to the cell at address `p` and leaving
every other cell as it is. -/
def shrinkAt (p : Ptr) (k : Int) (c : Freenode) : Freenode :=
  if c.ptr = p then { c with addr := c.addr + k, size := c.size - k } else c

/-- Source `split`.  `node` is the cell as `search` returned it. -/
def split (list : Freelist) (node : Freenode) (size_requested : Int) : Freelist × Int :=
  if node.size = size_requested then
    (removeNode list node.ptr, node.addr)
  else
    ({ list with nodes := list.nodes.map (shrinkAt node.ptr size_requested) }, node.addr)

/-- The merge of the new cell into its predecessor (lines 120-131 of the
source): given the cells before the insertion point and the new cell, returns
the cells before the surviving cell, the surviving cell, and the change of
`length`. -/
def mergePrev (before : List Freenode) (newNode : Freenode) :
    List Freenode × Freenode × Int :=
  match before.getLast? with
  | none => (before, newNode, 0)
  | some p =>
    if p.addr + p.size = newNode.addr then
      (before.dropLast, { p with size := p.size + newNode.size }, -1)
    else (before, newNode, 0)

/-- The merge of the successor into the surviving cell (lines 133-143 of the
source): returns the surviving cell, the cells after it, and the change of
`length`. -/
def mergeNext (newNode : Freenode) (after : List Freenode) :
    Freenode × List Freenode × Int :=
  match after with
  | [] => (newNode, [], 0)
  | n :: rest =>
    if newNode.addr + newNode.size = n.addr then
      ({ newNode with size := newNode.size + n.size }, rest, -1)
    else (newNode, after, 0)

/-- Source `insertNode`.  On an empty chain the new cell becomes `head` and the
function returns at once.  Otherwise the cell is linked after the cells whose
`addr` is smaller, merged with its predecessor and then with its successor, and
the cursor moves to the surviving cell when that cell's `addr` is below the
`addr` of the cell the cursor points to.  That last read (line 146) comes after
the merges: the cursor's cell is looked up in the chain as the merges left it.
When it is not there (the second merge deleted it at line 141, or the cursor
was dangling before) the source reads a deleted cell; the model leaves the
cursor where it was. -/
def insertNode (list : Freelist) (addr size : Int) : Freelist :=
  let newNode : Freenode := { ptr := list.fresh, addr := addr, size := size }
  match list.nodes with
  | [] => { list with nodes := [newNode], fresh := list.fresh + 1 }
  | _ :: _ =>
    let before := list.nodes.takeWhile (fun c => c.addr < addr)
    let after := list.nodes.dropWhile (fun c => c.addr < addr)
    let (before1, node1, d1) := mergePrev before newNode
    let (node2, after2, d2) := mergeNext node1 after
    let cursor : Option Ptr :=
      match list.last_searched with
      | none => none
      | some q =>
        match (before1 ++ node2 :: after2).find? (fun c => c.ptr == q) with
        | some qc => if node2.addr < qc.addr then some node2.ptr else some q
        | none => some q
    { nodes := before1 ++ node2 :: after2
      last_searched := cursor
      length := list.length + 1 + d1 + d2
      fresh := list.fresh + 1 }

/-- Source `alloc`.  `size` is a `size_t`; `size_with_header` is the `int` that
receives `size + sizeof(Header)`.  The header is built by
`new Header{hdptr, size}`, an aggregate initialisation that fills the fields in
declaration order: `hdptr` receives `hdptr`, `allocptr` receives `size`
(converted to `int`), and the field `size` is value-initialised to zero. -/
def alloc (allocator : Allocator) (size : Int) : Allocator × Option Header :=
  let size_with_header := toInt (size + HEADER_SIZE)
  match search allocator.free_list size_with_header with
  | (list, some node) =>
    let r := split list node size_with_header
    ({ allocator with free_list := r.1 },
      some { hdptr := r.2, allocptr := toInt size, size := 0 })
  | (list, none) => ({ allocator with free_list := list }, none)

/-- Source `free`.  `size` is the `int` that receives
`header->size + sizeof(Header)`. -/
def free (allocator : Allocator) (header : Header) : Allocator :=
  let addr := header.hdptr
  let size := toInt (header.size + HEADER_SIZE)
  { allocator with free_list := insertNode allocator.free_list addr size }

/-- One call of the public interface: `alloc(allocator, size)`, or `free` of the
`k`-th header among those handed out and not yet freed. -/
inductive Op where
  | alloc (size : Int)
  | free (k : Nat)

/-- An allocator together with the outstanding headers (returned by `alloc`, not
yet passed to `free`), each recorded with the size that was requested for it. -/
structure Sys where
  allocator : Allocator
  live : List (Int × Header)
deriving DecidableEq

/-- The state right after `init_allocator(base, size)`: nothing handed out yet. -/
def start (base size : Int) : Sys :=
  { allocator := init_allocator base size, live := [] }

/-- One call.  `free k` is only possible on an outstanding header. -/
def step (s : Sys) : Op → Option Sys
  | Op.alloc n =>
    match alloc s.allocator n with
    | (a, some h) => some { allocator := a, live := s.live ++ [(n, h)] }
    | (a, none) => some { allocator := a, live := s.live }
  | Op.free k =>
    match s.live[k]? with
    | some e => some { allocator := free s.allocator e.2, live := s.live.eraseIdx k }
    | none => none

/-- A finite sequence of calls; `none` when some `free` is not on an outstanding
header. -/
def run (s : Sys) : List Op → Option Sys
  | [] => some s
  | op :: ops => (step s op).bind (fun s1 => run s1 ops)

/-- The call is an `alloc` with a positive size, or a `free`. -/
def Op.positive : Op → Prop
  | Op.alloc n => 0 < n
  | Op.free _ => True

instance (op : Op) : Decidable op.positive := by
  cases op <;> unfold Op.positive <;> exact inferInstance

/-- The call is an `alloc` with a positive size `n` for which `n + HEADER_SIZE`
still is an `int`, or a `free`. -/
def Op.inRange : Op → Prop
  | Op.alloc n => 0 < n ∧ n + HEADER_SIZE ≤ INT_MAX
  | Op.free _ => True

instance (op : Op) : Decidable op.inRange := by
  cases op <;> unfold Op.inRange <;> exact inferInstance

/-- Sum of the sizes of the free-list regions. -/
def freeTotal (list : Freelist) : Int :=
  (list.nodes.map Freenode.size).sum

/-- Sum over the outstanding headers of `header.size + HEADER_SIZE`. -/
def liveTotal (live : List (Int × Header)) : Int :=
  (live.map (fun e => e.2.size + HEADER_SIZE)).sum

/-- The intervals `[a, a + s)` and `[b, b + t)` do not meet (one ends before the
other begins). -/
def Apart (a s b t : Int) : Prop :=
  a + s ≤ b ∨ b + t ≤ a

instance (a s b t : Int) : Decidable (Apart a s b t) := by
  unfold Apart
  exact inferInstance

/-- The cursor is unset or points to a cell of the chain. -/
def cursorValid (list : Freelist) : Prop :=
  ∀ p, list.last_searched = some p → ∃ c ∈ list.nodes, c.ptr = p

instance (list : Freelist) : Decidable (cursorValid list) :=
  decidable_of_iff (∀ p ∈ list.last_searched, ∃ c ∈ list.nodes, c.ptr = p)
    (by simp [cursorValid, Option.mem_def])

/-- Position at which `search` begins: the cursor's cell, `head` when the cursor
is unset. -/
def startIndex (list : Freelist) : Nat :=
  match list.last_searched with
  | none => 0
  | some p => indexOfPtr list.nodes p

/-- The cells in circular order from the position where `search` begins: from
there to the last cell, then from `head` up to the cell before it. -/
def scanOrder (list : Freelist) : List Freenode :=
  list.nodes.drop (startIndex list) ++ list.nodes.take (startIndex list)

/-- Calls `alloc` for each size in turn; the headers returned, or `none` as soon
as one call fails. -/
def allocAll (allocator : Allocator) : List Int → Option (List Header)
  | [] => some []
  | n :: ns =>
    match alloc allocator n with
    | (a, some h) => (allocAll a ns).map (fun hs => h :: hs)
    | (_, none) => none

/-- `x` ends strictly before `y` begins. -/
def Before (x y : Freenode) : Prop :=
  x.addr + x.size < y.addr

instance (x y : Freenode) : Decidable (Before x y) := by
  unfold Before
  exact inferInstance

/-- The blocks `[hdptr, hdptr + n + HEADER_SIZE)` of two outstanding allocations
do not meet. -/
def blockApart (e f : Int × Header) : Prop :=
  Apart e.2.hdptr (e.1 + HEADER_SIZE) f.2.hdptr (f.1 + HEADER_SIZE)

instance (e f : Int × Header) : Decidable (blockApart e f) := by
  unfold blockApart
  exact inferInstance

/-- The block of an outstanding allocation does not meet a free region. -/
def blockFree (e : Int × Header) (c : Freenode) : Prop :=
  Apart e.2.hdptr (e.1 + HEADER_SIZE) c.addr c.size

instance (e : Int × Header) (c : Freenode) : Decidable (blockFree e c) := by
  unfold blockFree
  exact inferInstance

/-- What holds in every state reached from `init_allocator` by `alloc` calls
with positive sizes `n`, `n + HEADER_SIZE ≤ INT_MAX`, and `free` calls on
outstanding headers. -/
structure Inv (s : Sys) : Prop where
  nodup : (s.allocator.free_list.nodes.map Freenode.ptr).Nodup
  fresh : ∀ c ∈ s.allocator.free_list.nodes, c.ptr < s.allocator.free_list.fresh
  sorted : s.allocator.free_list.nodes.Pairwise Before
  pos : ∀ c ∈ s.allocator.free_list.nodes, 0 < c.size
  live_ok : ∀ e ∈ s.live, 0 < e.1 ∧ e.2.size = 0
  live_apart : s.live.Pairwise blockApart
  live_free : ∀ e ∈ s.live, ∀ c ∈ s.allocator.free_list.nodes, blockFree e c

/-- The address `z` lies in the block `[hdptr, hdptr + n + HEADER_SIZE)` of the
outstanding allocation `e = (n, header)`. -/
def inBlock (e : Int × Header) (z : Int) : Prop :=
  e.2.hdptr ≤ z ∧ z < e.2.hdptr + e.1 + HEADER_SIZE

instance (e : Int × Header) (z : Int) : Decidable (inBlock e z) := by
  unfold inBlock
  exact inferInstance

/-- The address `z` lies in the free region `[addr, addr + size)`. -/
def inRegion (c : Freenode) (z : Int) : Prop :=
  c.addr ≤ z ∧ z < c.addr + c.size

instance (c : Freenode) (z : Int) : Decidable (inRegion c z) := by
  unfold inRegion
  exact inferInstance

/-- The calls of `main` up to the third allocation. -/
def demoOps : List Op :=
  [Op.alloc 200, Op.alloc 200, Op.free 0, Op.alloc 100]

/-- The state `main` is in after the third allocation. -/
def demoState : Sys :=
  { allocator :=
      { base := 500, size := 1000,
        free_list :=
          { nodes := [⟨1, 500, 12⟩, ⟨0, 1036, 464⟩], last_searched := some 0,
            length := 2, fresh := 2 } }
    live := [(200, ⟨712, 200, 0⟩), (100, ⟨924, 100, 0⟩)] }

/-- The calls of `main` before the third allocation. -/
def demoPrefix : List Op :=
  [Op.alloc 200, Op.alloc 200, Op.free 0]

/-- The state `main` is in right before the third allocation. -/
def demoBefore : Sys :=
  { allocator :=
      { base := 500, size := 1000,
        free_list :=
          { nodes := [⟨1, 500, 12⟩, ⟨0, 924, 576⟩], last_searched := some 1,
            length := 2, fresh := 2 } }
    live := [(200, ⟨712, 200, 0⟩)] }

/-- The address `z` lies in some region of the list. -/
def Covered (nodes : List Freenode) (z : Int) : Prop :=
  ∃ c ∈ nodes, inRegion c z

/-- The spec's well-formedness of the region sequence: every two consecutive
regions `a, b` satisfy `a.addr + a.size < b.addr` (ascending, disjoint and not
adjacent), and every region has positive size. -/
def WellFormed (nodes : List Freenode) : Prop :=
  (∀ (i : Nat) (a b : Freenode), nodes[i]? = some a → nodes[i + 1]? = some b →
      a.addr + a.size < b.addr) ∧
    ∀ c ∈ nodes, 0 < c.size

/-- The addresses of the regions are strictly ascending along the list. -/
def Ascending (nodes : List Freenode) : Prop :=
  nodes.Pairwise (fun x y => x.addr < y.addr)

instance (nodes : List Freenode) : Decidable (Ascending nodes) := by
  unfold Ascending
  exact inferInstance

/-- The region `x` does not end exactly where `y` begins. -/
def NotTouching (x y : Freenode) : Prop :=
  x.addr + x.size ≠ y.addr

instance (x y : Freenode) : Decidable (NotTouching x y) := by
  unfold NotTouching
  exact inferInstance

/-- No region ends exactly where its successor in the list begins. -/
def NonAdjacent (nodes : List Freenode) : Prop :=
  ∀ (i : Nat) (a b : Freenode), nodes[i]? = some a → nodes[i + 1]? = some b →
    a.addr + a.size ≠ b.addr

/-- Every free region and every outstanding block lies in `[lo, hi)`. -/
def Bounded (lo hi : Int) (s : Sys) : Prop :=
  (∀ c ∈ s.allocator.free_list.nodes, lo ≤ c.addr ∧ c.addr + c.size ≤ hi) ∧
    ∀ e ∈ s.live, lo ≤ e.2.hdptr ∧ e.2.hdptr + e.1 + HEADER_SIZE ≤ hi

/-- The positions that the loop of `search` examines, in order: `searchLoop`
with the same control flow, recording `current` at every size comparison. -/
def searchTrace (nodes : List Freenode) (size_requested : Int) (start : Nat) :
    Nat → Nat → List Nat
  | 0, _ => []
  | fuel + 1, current =>
    match nodes[current]? with
    | none => []
    | some c =>
      if c.size ≥ size_requested then [current]
      else
        let next := if current + 1 < nodes.length then current + 1 else 0
        if next = start then [current]
        else current :: searchTrace nodes size_requested start fuel next

/-! ## The header built by `alloc` -/

/-- C1 (evaluation at the failing input): after `init_allocator(500, 1000)`,
`alloc(200)` returns a header with `hdptr = 500`, `allocptr = 200` and
`size = 0`, whereas `init_header(500, 200)` has `allocptr = 512` and
`size = 200`. -/
theorem alloc_header_fields :
    (alloc (init_allocator 500 1000) 200).2
        = some { hdptr := 500, allocptr := 200, size := 0 } ∧
      init_header 500 200 = { hdptr := 500, allocptr := 512, size := 200 } := by
  decide

/-- C2 (evaluation at the failing input): after `init_allocator(500, 1000)` and
`alloc(200)` the free sizes sum to 788 and the outstanding header contributes
`0 + HEADER_SIZE = 12`, a total of 800 and not 1000; after freeing that header
the free sizes sum to 800 with nothing outstanding. -/
theorem capacity_after_alloc :
    (∃ s, run (start 500 1000) [Op.alloc 200] = some s ∧ s.allocator.size = 1000 ∧
        freeTotal s.allocator.free_list = 788 ∧ liveTotal s.live = 12) ∧
      (∃ s, run (start 500 1000) [Op.alloc 200, Op.free 0] = some s ∧
        s.allocator.size = 1000 ∧ freeTotal s.allocator.free_list = 800 ∧
        s.live = []) := by
  constructor
  · exact ⟨_, rfl, by decide, by decide, by decide⟩
  · exact ⟨_, rfl, by decide, by decide, by decide⟩

/-- C3 (evaluation at the failing input): after `init_allocator(500, 1000)`,
`h = alloc(200)` and `free(h)` the free list is `(500, 12), (712, 788)`, not the
single region `(500, 1000)` it was before the `alloc`. -/
theorem round_trip_regions :
    (init_allocator 500 1000).free_list.regions = [(500, 1000)] ∧
      (alloc (init_allocator 500 1000) 200).2
        = some { hdptr := 500, allocptr := 200, size := 0 } ∧
      (free (alloc (init_allocator 500 1000) 200).1
          { hdptr := 500, allocptr := 200, size := 0 }).free_list.regions
        = [(500, 12), (712, 788)] := by
  decide

/-! ## The scan of `search` -/

theorem searchLoop_mem (nodes : List Freenode) (req : Int) (st : Nat) :
    ∀ (fuel i : Nat) (c : Freenode), searchLoop nodes req st fuel i = some (some c) →
      c ∈ nodes ∧ req ≤ c.size := by
  intro fuel
  induction fuel with
  | zero => intro i c h; simp [searchLoop] at h
  | succ f ih =>
    intro i c h
    unfold searchLoop at h
    cases hg : nodes[i]? with
    | none => simp [hg] at h
    | some d =>
      simp only [hg] at h
      split_ifs at h with h1
      all_goals first
        | exact ih _ _ h
        | (simp only [Option.some.injEq] at h
           subst h
           exact ⟨List.getElem?_mem hg, h1⟩)
        | simp at h

theorem searchLoop_before (req : Int) (st : Nat) (rest : List Freenode) (hrest : rest ≠ []) :
    ∀ (mid pre : List Freenode) (fuel : Nat), mid ≠ [] → pre.length + mid.length = st →
      mid.length ≤ fuel →
      searchLoop (pre ++ mid ++ rest) req st fuel pre.length
        = some (mid.find? (fun c => decide (req ≤ c.size))) := by
  intro mid
  induction mid with
  | nil => intro pre fuel h; exact absurd rfl h
  | cons c mid ih =>
    intro pre fuel _ hst hfuel
    have hrl : 0 < rest.length := List.length_pos.mpr hrest
    cases fuel with
    | zero => simp at hfuel
    | succ f =>
      have hget : (pre ++ c :: mid ++ rest)[pre.length]? = some c := by
        rw [List.append_assoc, List.getElem?_append_right (Nat.le_refl _)]
        simp
      unfold searchLoop
      simp only [hget]
      by_cases hfit : req ≤ c.size
      · simp [hfit, List.find?_cons]
      · have hlt : pre.length + 1 < (pre ++ c :: mid ++ rest).length := by
          simp only [List.length_append, List.length_cons]; omega
        simp only [ge_iff_le, hfit, if_false, hlt, if_true]
        cases mid with
        | nil =>
          have : pre.length + 1 = st := by simpa using hst
          simp [this, List.find?_cons, hfit]
        | cons d mid =>
          have hne : pre.length + 1 ≠ st := by
            simp only [List.length_cons] at hst; omega
          simp only [hne, if_false]
          have := ih (pre ++ [c]) f (by simp) (by simp only [List.length_append, List.length_cons, List.length_nil] at hst ⊢; omega)
            (by simp only [List.length_cons] at hfuel ⊢; omega)
          simp only [List.length_append, List.length_cons, List.length_nil, List.append_assoc,
            List.singleton_append, List.cons_append, Nat.zero_add, List.nil_append] at this
          simp only [List.append_assoc, List.cons_append]
          rw [this]
          simp [List.find?_cons, hfit]

theorem searchLoop_after (req : Int) (st : Nat) :
    ∀ (suf pre : List Freenode) (fuel : Nat), suf ≠ [] → st ≤ pre.length →
      suf.length + st ≤ fuel →
      searchLoop (pre ++ suf) req st fuel pre.length
        = some ((suf ++ pre.take st).find? (fun c => decide (req ≤ c.size))) := by
  intro suf
  induction suf with
  | nil => intro pre fuel h; exact absurd rfl h
  | cons c suf ih =>
    intro pre fuel _ hst hfuel
    cases fuel with
    | zero => simp at hfuel
    | succ f =>
      have hget : (pre ++ c :: suf)[pre.length]? = some c := by
        rw [List.getElem?_append_right (Nat.le_refl _)]
        simp
      unfold searchLoop
      simp only [hget]
      by_cases hfit : req ≤ c.size
      · simp [hfit, List.find?_cons]
      · simp only [ge_iff_le, hfit, if_false]
        cases suf with
        | nil =>
          have hlt : ¬ pre.length + 1 < (pre ++ [c]).length := by simp
          simp only [hlt, if_false]
          by_cases h0 : 0 = st
          · subst h0
            simp [List.find?_cons, hfit]
          · simp only [h0, if_false]
            have hb := searchLoop_before req st (pre.drop st ++ [c]) (by simp)
              (pre.take st) [] f
              (by
                intro hnil
                have := congrArg List.length hnil
                simp only [List.length_take, List.length_nil] at this
                omega)
              (by simp only [List.length_nil, List.length_take]; omega)
              (by simp only [List.length_take, List.length_cons, List.length_nil] at hfuel ⊢; omega)
            simp only [List.nil_append, List.length_nil] at hb
            rw [← List.append_assoc, List.take_append_drop] at hb
            rw [hb]
            simp [List.find?_cons, hfit]
        | cons d suf =>
          have hlt : pre.length + 1 < (pre ++ c :: d :: suf).length := by
            simp only [List.length_append, List.length_cons]; omega
          have hne : pre.length + 1 ≠ st := by omega
          simp only [hlt, if_true, hne, if_false]
          have := ih (pre ++ [c]) f (by simp)
            (by simp only [List.length_append, List.length_cons, List.length_nil]; omega)
            (by simp only [List.length_cons] at hfuel ⊢; omega)
          simp only [List.length_append, List.length_cons, List.length_nil, List.append_assoc,
            List.singleton_append, Nat.zero_add] at this
          rw [this, List.take_append_of_le_length hst]
          simp [List.find?_cons, hfit]

theorem searchLoop_scan (nodes : List Freenode) (req : Int) (st : Nat)
    (hst : st < nodes.length) :
    searchLoop nodes req st nodes.length st
      = some ((nodes.drop st ++ nodes.take st).find? (fun c => decide (req ≤ c.size))) := by
  have hlen : (nodes.take st).length = st := by
    rw [List.length_take]; omega
  have h := searchLoop_after req st (nodes.drop st) (nodes.take st) nodes.length
    (by
      intro hnil
      have := congrArg List.length hnil
      simp only [List.length_drop, List.length_nil] at this
      omega)
    (by omega)
    (by rw [List.length_drop]; omega)
  rw [List.take_append_drop, hlen, List.take_take, Nat.min_self] at h
  exact h

theorem searchFrom_eq (nodes : List Freenode) (req : Int) (cursor : Ptr)
    (h : indexOfPtr nodes cursor < nodes.length) :
    searchFrom nodes req cursor
      = some ((nodes.drop (indexOfPtr nodes cursor) ++
          nodes.take (indexOfPtr nodes cursor)).find? (fun c => decide (req ≤ c.size))) :=
  searchLoop_scan nodes req _ h

theorem startIndex_lt (list : Freelist) (hv : cursorValid list) (hne : list.nodes ≠ []) :
    startIndex list < list.nodes.length := by
  unfold startIndex
  cases hc : list.last_searched with
  | none => exact List.length_pos.mpr hne
  | some p =>
    obtain ⟨c, hc1, hc2⟩ := hv p hc
    exact List.findIdx_lt_length_of_exists ⟨c, hc1, by simp [hc2]⟩

/-- What `search` computes on a list whose cursor is unset or live: the first
fitting cell in circular order from the cursor. -/
theorem search_eq (list : Freelist) (req : Int) (hv : cursorValid list) :
    search list req =
      match (scanOrder list).find? (fun c => decide (req ≤ c.size)) with
      | some c => ({ list with last_searched := some c.ptr }, some c)
      | none =>
        ({ list with
           last_searched :=
             match list.last_searched with
             | some p => some p
             | none => list.head }, none) := by
  obtain ⟨nodes, cur, len, fr⟩ := list
  cases nodes with
  | nil =>
    cases cur with
    | none => simp [search, scanOrder, Freelist.head]
    | some p =>
      obtain ⟨c, hc, _⟩ := hv p rfl
      simp at hc
  | cons h t =>
    have hlt := startIndex_lt ⟨h :: t, cur, len, fr⟩ hv (by simp)
    cases cur with
    | none =>
      have h0 : indexOfPtr (h :: t) h.ptr = 0 := by simp [indexOfPtr, List.findIdx_cons]
      have hscan := searchFrom_eq (h :: t) req h.ptr (by rw [h0]; simp)
      rw [h0] at hscan
      simp only [search, Option.getD_none, hscan, scanOrder, startIndex, Freelist.head]
      cases List.find? (fun c => decide (req ≤ c.size))
        (List.drop 0 (h :: t) ++ List.take 0 (h :: t)) <;> simp
    | some p =>
      have hscan := searchFrom_eq (h :: t) req p hlt
      simp only [search, Option.getD_some, hscan, scanOrder, startIndex]
      cases List.find? (fun c => decide (req ≤ c.size))
        (List.drop (indexOfPtr (h :: t) p) (h :: t) ++
          List.take (indexOfPtr (h :: t) p) (h :: t)) <;> simp

theorem find?_eq_getElem?_findIdx (p : Freenode → Bool) :
    ∀ l : List Freenode, l.find? p = l[l.findIdx p]? := by
  intro l
  induction l with
  | nil => simp
  | cons a l ih =>
    by_cases ha : p a = true
    · simp [List.find?_cons, List.findIdx_cons, ha]
    · simp [List.find?_cons, List.findIdx_cons, ha, ih]

theorem mem_scanOrder (list : Freelist) (x : Freenode) :
    x ∈ scanOrder list ↔ x ∈ list.nodes := by
  unfold scanOrder
  rw [List.mem_append]
  constructor
  · rintro (h | h)
    · exact List.mem_of_mem_drop h
    · exact List.mem_of_mem_take h
  · intro h
    rw [← List.take_append_drop (startIndex list) list.nodes, List.mem_append] at h
    exact h.symm

theorem toInt_of_range (x : Int) (h1 : -2147483648 ≤ x) (h2 : x ≤ INT_MAX) : toInt x = x := by
  unfold toInt
  unfold INT_MAX at h2
  omega

theorem toInt_header (n : Int) (h1 : 0 < n) (h2 : n + HEADER_SIZE ≤ INT_MAX) :
    toInt (n + HEADER_SIZE) = n + HEADER_SIZE := by
  have h12 : HEADER_SIZE = 12 := rfl
  exact toInt_of_range _ (by omega) h2

theorem alloc_snd_none (a : Allocator) (n : Int) :
    (alloc a n).2 = none ↔ (search a.free_list (toInt (n + HEADER_SIZE))).2 = none := by
  unfold alloc
  rcases hs : search a.free_list (toInt (n + HEADER_SIZE)) with ⟨l, _ | node⟩ <;> simp [hs]

theorem alloc_fst_of_none (a : Allocator) (n : Int) (h : (alloc a n).2 = none) :
    (alloc a n).1
      = { a with free_list := (search a.free_list (toInt (n + HEADER_SIZE))).1 } := by
  unfold alloc at h ⊢
  rcases hs : search a.free_list (toInt (n + HEADER_SIZE)) with ⟨l, _ | node⟩
  · simp [hs]
  · simp [hs] at h

/-- A failing `search` touches nothing but the cursor, which it sets to `head`
when it was unset. -/
theorem search_fst_of_none (list : Freelist) (req : Int) (h : (search list req).2 = none) :
    (search list req).1 =
      { list with
        last_searched :=
          match list.last_searched with
          | some p => some p
          | none => list.head } := by
  obtain ⟨nodes, cur, len, fr⟩ := list
  cases nodes with
  | nil => cases cur <;> simp [search, Freelist.head]
  | cons c t =>
    cases cur with
    | none =>
      simp only [search] at h ⊢
      generalize searchFrom _ _ _ = r at h ⊢
      rcases r with _ | _ | d <;> simp_all [Freelist.head]
    | some p =>
      simp only [search] at h ⊢
      generalize searchFrom _ _ _ = r at h ⊢
      rcases r with _ | _ | d <;> simp_all [Freelist.head]

/-- C5 (counterexample): on `init_allocator(0, 10)` the cursor is unset and
`n = 2147483647` has `n + HEADER_SIZE > 0`; the only region has size `10`, less
than `n + HEADER_SIZE`, and yet `alloc` returns a header: `size_with_header` is
`-2147483637`. -/
theorem alloc_succeeds_on_wrap :
    cursorValid (init_allocator 0 10).free_list ∧ 0 < 2147483647 + HEADER_SIZE ∧
      (∀ c ∈ (init_allocator 0 10).free_list.nodes, c.size < 2147483647 + HEADER_SIZE) ∧
      toInt (2147483647 + HEADER_SIZE) = -2147483637 ∧
      (alloc (init_allocator 0 10) 2147483647).2
        = some { hdptr := 0, allocptr := 2147483647, size := 0 } := by
  decide

/-- C5 (amended): on a list whose cursor is unset or live, for a size `n` with
`0 < n + HEADER_SIZE ≤ INT_MAX`, `alloc` returns NULL exactly when no free
region has size at least `n + HEADER_SIZE`; in particular it returns NULL on an
empty list. -/
theorem alloc_fails_iff (a : Allocator) (n : Int) (hv : cursorValid a.free_list)
    (hpos : 0 < n + HEADER_SIZE) (hmax : n + HEADER_SIZE ≤ INT_MAX) :
    ((alloc a n).2 = none ↔ ∀ c ∈ a.free_list.nodes, c.size < n + HEADER_SIZE) ∧
      (a.free_list.nodes = [] → (alloc a n).2 = none) := by
  have hk : toInt (n + HEADER_SIZE) = n + HEADER_SIZE :=
    toInt_of_range _ (by omega) hmax
  have key : (alloc a n).2 = none ↔ ∀ c ∈ a.free_list.nodes, c.size < n + HEADER_SIZE := by
    rw [alloc_snd_none, hk, search_eq _ _ hv]
    cases hf : (scanOrder a.free_list).find? (fun c => decide (n + HEADER_SIZE ≤ c.size)) with
    | none =>
      simp only [true_iff]
      intro c hc
      have := List.find?_eq_none.mp hf c ((mem_scanOrder _ _).mpr hc)
      simpa using this
    | some c =>
      have h1 : n + HEADER_SIZE ≤ c.size := by simpa using List.find?_some hf
      have h2 := (mem_scanOrder _ _).mp (List.mem_of_find?_eq_some hf)
      constructor
      · intro h
        simp at h
      · intro hall
        have := hall c h2
        omega
  refine ⟨key, fun hnil => key.mpr ?_⟩
  intro c hc
  rw [hnil] at hc
  simp at hc

/-- C5 (amended) at a list whose only fitting region lies before the cursor. -/
theorem alloc_fails_iff_witness :
    ((alloc { base := 0, size := 1000,
              free_list := { nodes := [⟨0, 0, 300⟩, ⟨1, 500, 50⟩], last_searched := some 1,
                             length := 2, fresh := 2 } } 100).2 = none ↔
        ∀ c ∈ [(⟨0, 0, 300⟩ : Freenode), ⟨1, 500, 50⟩], c.size < 100 + HEADER_SIZE) ∧
      (([(⟨0, 0, 300⟩ : Freenode), ⟨1, 500, 50⟩] = []) →
        (alloc { base := 0, size := 1000,
                 free_list := { nodes := [⟨0, 0, 300⟩, ⟨1, 500, 50⟩], last_searched := some 1,
                                length := 2, fresh := 2 } } 100).2 = none) :=
  alloc_fails_iff
    { base := 0, size := 1000,
      free_list := { nodes := [⟨0, 0, 300⟩, ⟨1, 500, 50⟩], last_searched := some 1,
                     length := 2, fresh := 2 } }
    100 (by decide) (by decide) (by decide)

/-- C6 (counterexample): after `init_allocator(0, 100)` the cursor is unset;
`alloc(200)` returns NULL and leaves the cursor pointing to the head cell. -/
theorem alloc_failure_moves_cursor :
    (init_allocator 0 100).free_list.last_searched = none ∧
      (alloc (init_allocator 0 100) 200).2 = none ∧
      (alloc (init_allocator 0 100) 200).1.free_list.last_searched = some 0 ∧
      (alloc (init_allocator 0 100) 200).1.free_list ≠ (init_allocator 0 100).free_list := by
  decide

/-- C6 (amended): when `alloc` returns NULL the regions, the count `length` and
the managed range are as before the call; the cursor is as before when it was
set, and is `head` (unset only on an empty list) when it was unset. -/
theorem alloc_failure_frame (a : Allocator) (n : Int) (h : (alloc a n).2 = none) :
    (alloc a n).1.free_list.nodes = a.free_list.nodes ∧
      (alloc a n).1.free_list.length = a.free_list.length ∧
      (alloc a n).1.base = a.base ∧ (alloc a n).1.size = a.size ∧
      (alloc a n).1.free_list.last_searched =
        (match a.free_list.last_searched with
         | some p => some p
         | none => a.free_list.head) := by
  rw [alloc_fst_of_none a n h, search_fst_of_none _ _ ((alloc_snd_none a n).mp h)]
  exact ⟨rfl, rfl, rfl, rfl, rfl⟩

/-- C6 (amended) at `init_allocator(0, 100)` followed by `alloc(200)`. -/
theorem alloc_failure_frame_witness :
    (alloc (init_allocator 0 100) 200).1.free_list.nodes
        = (init_allocator 0 100).free_list.nodes ∧
      (alloc (init_allocator 0 100) 200).1.free_list.length
        = (init_allocator 0 100).free_list.length ∧
      (alloc (init_allocator 0 100) 200).1.base = (init_allocator 0 100).base ∧
      (alloc (init_allocator 0 100) 200).1.size = (init_allocator 0 100).size ∧
      (alloc (init_allocator 0 100) 200).1.free_list.last_searched =
        (match (init_allocator 0 100).free_list.last_searched with
         | some p => some p
         | none => (init_allocator 0 100).free_list.head) :=
  alloc_failure_frame (init_allocator 0 100) 200 (by decide)

/-- C9: on a non-empty list whose cursor is unset or live, when some region has
size at least `s`, `search` returns the first such region in the circular order
that begins at the cursor's cell (at `head` when the cursor is unset) and wraps
from the last cell to `head`, and leaves the cursor on it; in particular it
returns the cursor's own cell whenever that cell is large enough. -/
theorem search_next_fit (list : Freelist) (s : Int) (_hne : list.nodes ≠ [])
    (hv : cursorValid list) (hfit : ∃ c ∈ list.nodes, s ≤ c.size) :
    ∃ skipped found later,
      scanOrder list = skipped ++ found :: later ∧
      (∀ x ∈ skipped, x.size < s) ∧ s ≤ found.size ∧
      (search list s).2 = some found ∧
      (search list s).1.last_searched = some found.ptr ∧
      (∀ p r2, list.last_searched = some p →
        list.nodes.find? (fun c => c.ptr == p) = some r2 → s ≤ r2.size → found = r2) := by
  have hs := search_eq list s hv
  cases hf : (scanOrder list).find? (fun c => decide (s ≤ c.size)) with
  | none =>
    obtain ⟨c, hc, hcs⟩ := hfit
    have := List.find?_eq_none.mp hf c ((mem_scanOrder _ _).mpr hc)
    simp at this
    omega
  | some found =>
    rw [hf] at hs
    obtain ⟨hp, skipped, later, hsplit, hskip⟩ := List.find?_eq_some.mp hf
    have hskip2 : ∀ x ∈ skipped, x.size < s := by
      intro x hx
      have := hskip x hx
      simpa using this
    refine ⟨skipped, found, later, hsplit, hskip2, by simpa using hp, ?_, ?_, ?_⟩
    · rw [hs]
    · rw [hs]
    · intro p r2 hcur hderef hr2
      have hidx : list.nodes[startIndex list]? = some r2 := by
        unfold startIndex
        rw [hcur]
        simp only [indexOfPtr]
        rw [← find?_eq_getElem?_findIdx]
        exact hderef
      have hhead : (scanOrder list).head? = some r2 := by
        unfold scanOrder
        rw [List.head?_append, List.head?_drop, hidx]
        rfl
      rw [hsplit] at hhead
      cases skipped with
      | nil => simpa using hhead
      | cons y ys =>
        simp only [List.cons_append, List.head?_cons, Option.some.injEq] at hhead
        have := hskip2 y (List.mem_cons_self _ _)
        rw [hhead] at this
        omega

/-- C9 at a list of two fitting regions with the cursor on the second. -/
theorem search_next_fit_witness :
    ∃ skipped found later,
      scanOrder { nodes := [⟨0, 0, 300⟩, ⟨1, 500, 200⟩], last_searched := some 1,
                  length := 2, fresh := 2 } = skipped ++ found :: later ∧
      (∀ x ∈ skipped, x.size < 100) ∧ 100 ≤ found.size ∧
      (search { nodes := [⟨0, 0, 300⟩, ⟨1, 500, 200⟩], last_searched := some 1,
                length := 2, fresh := 2 } 100).2 = some found ∧
      (search { nodes := [⟨0, 0, 300⟩, ⟨1, 500, 200⟩], last_searched := some 1,
                length := 2, fresh := 2 } 100).1.last_searched = some found.ptr ∧
      (∀ p r2, (some 1 : Option Ptr) = some p →
        List.find? (fun c => c.ptr == p) [(⟨0, 0, 300⟩ : Freenode), ⟨1, 500, 200⟩] = some r2 →
        100 ≤ r2.size → found = r2) :=
  search_next_fit
    { nodes := [⟨0, 0, 300⟩, ⟨1, 500, 200⟩], last_searched := some 1, length := 2, fresh := 2 }
    100 (by decide) (by decide) ⟨⟨0, 0, 300⟩, by decide, by decide⟩

/-! ## Carving from a single region -/

theorem alloc_single (b sz : Int) (p : Ptr) (a s : Int) (cur : Option Ptr) (len : Int)
    (fr : Ptr) (n : Int) (hcur : cur = none ∨ cur = some p) :
    alloc ⟨b, sz, ⟨[⟨p, a, s⟩], cur, len, fr⟩⟩ n =
      if toInt (n + HEADER_SIZE) ≤ s then
        if s = toInt (n + HEADER_SIZE) then
          (⟨b, sz, ⟨[], none, len - 1, fr⟩⟩, some ⟨a, toInt n, 0⟩)
        else
          (⟨b, sz, ⟨[⟨p, a + (toInt (n + HEADER_SIZE)), s - (toInt (n + HEADER_SIZE))⟩], some p, len, fr⟩⟩,
            some ⟨a, toInt n, 0⟩)
      else (⟨b, sz, ⟨[⟨p, a, s⟩], some p, len, fr⟩⟩, none) := by
  rcases hcur with rfl | rfl <;>
    by_cases h1 : toInt (n + HEADER_SIZE) ≤ s <;>
    by_cases h2 : s = toInt (n + HEADER_SIZE) <;>
    simp [alloc, search, searchFrom, searchLoop, indexOfPtr, split, shrinkAt, removeNode, h1, h2,
      List.findIdx_cons]

theorem allocAll_empty (b sz : Int) (cur : Option Ptr) (len : Int) (fr : Ptr) :
    ∀ (ns : List Int) (hs : List Header),
      allocAll ⟨b, sz, ⟨[], cur, len, fr⟩⟩ ns = some hs → hs = [] := by
  intro ns hs h
  cases ns with
  | nil => simpa [allocAll] using h.symm
  | cons n ns => simp [allocAll, alloc, search] at h

theorem allocAll_single (b sz : Int) (p : Ptr) :
    ∀ (ns : List Int) (a s : Int) (cur : Option Ptr) (len : Int) (fr : Ptr)
      (hs : List Header), (cur = none ∨ cur = some p) →
      allocAll ⟨b, sz, ⟨[⟨p, a, s⟩], cur, len, fr⟩⟩ ns = some hs →
      ∀ (i : Nat) (h : Header), hs[i]? = some h →
        h.hdptr = a + ((ns.take i).map (fun n => toInt (n + HEADER_SIZE))).sum := by
  intro ns
  induction ns with
  | nil =>
    intro a s cur len fr hs _ hall i h hi
    simp only [allocAll, Option.some.injEq] at hall
    subst hall
    simp at hi
  | cons n ns ih =>
    intro a s cur len fr hs hcur hall i h hi
    simp only [allocAll, alloc_single b sz p a s cur len fr n hcur] at hall
    split_ifs at hall with h1 h2
    · -- exact fit: the list is empty afterwards
      simp only [Option.map_eq_some'] at hall
      obtain ⟨hs1, hall1, rfl⟩ := hall
      have := allocAll_empty _ _ _ _ _ _ _ hall1
      subst this
      cases i with
      | zero =>
        simp only [List.getElem?_cons_zero, Option.some.injEq] at hi
        subst hi
        simp
      | succ i => simp at hi
    · simp only [Option.map_eq_some'] at hall
      obtain ⟨hs1, hall1, rfl⟩ := hall
      cases i with
      | zero =>
        simp only [List.getElem?_cons_zero, Option.some.injEq] at hi
        subst hi
        simp
      | succ i =>
        simp only [List.getElem?_cons_succ] at hi
        have := ih _ _ _ _ _ hs1 (Or.inr rfl) hall1 i h hi
        rw [this]
        simp only [List.take_succ_cons, List.map_cons, List.sum_cons]
        ring

theorem search_cases (list : Freelist) (req : Int) :
    (search list req).2 = none ∨
      ∃ c st fuel i, searchLoop list.nodes req st fuel i = some (some c) ∧
        search list req = ({ list with last_searched := some c.ptr }, some c) := by
  unfold search
  split
  · left; rfl
  · simp only []
    split
    · rename_i c hl
      right
      exact ⟨c, _, _, _, hl, rfl⟩
    · left; rfl

theorem search_some (list : Freelist) (req : Int) (c : Freenode)
    (h : (search list req).2 = some c) :
    c ∈ list.nodes ∧ req ≤ c.size ∧ (search list req).1.nodes = list.nodes ∧
      (search list req).1.fresh = list.fresh := by
  rcases search_cases list req with hn | ⟨c1, st, fuel, i, hl, heq⟩
  · rw [hn] at h
    simp at h
  · rw [heq] at h ⊢
    simp only [Option.some.injEq] at h
    subst h
    have := searchLoop_mem _ _ _ _ _ _ hl
    exact ⟨this.1, this.2, rfl, rfl⟩

theorem alloc_some (a : Allocator) (n : Int) (h : Header) (hs : (alloc a n).2 = some h) :
    ∃ c ∈ a.free_list.nodes, toInt (n + HEADER_SIZE) ≤ c.size ∧ h = ⟨c.addr, toInt n, 0⟩ ∧
      (alloc a n).1.free_list.fresh = a.free_list.fresh ∧
      (alloc a n).1.free_list.nodes =
        if c.size = toInt (n + HEADER_SIZE) then
          a.free_list.nodes.eraseP (fun x => x.ptr == c.ptr)
        else a.free_list.nodes.map (shrinkAt c.ptr (toInt (n + HEADER_SIZE))) := by
  unfold alloc at hs ⊢
  rcases hsr : search a.free_list (toInt (n + HEADER_SIZE)) with ⟨l, _ | node⟩
  · simp [hsr] at hs
  · have hsome : (search a.free_list (toInt (n + HEADER_SIZE))).2 = some node := by rw [hsr]
    obtain ⟨h1, h2, h3, h4⟩ := search_some _ _ _ hsome
    rw [hsr] at h3 h4
    simp only at h3 h4
    simp only [hsr, Option.some.injEq] at hs ⊢
    refine ⟨node, h1, h2, ?_, ?_, ?_⟩
    · rw [← hs]
      unfold split
      split_ifs <;> rfl
    · unfold split
      split_ifs <;> simp [removeNode, h4]
    · unfold split
      split_ifs with hx
      · simp [removeNode, h3]
      · simp only [h3]

theorem alloc_none_nodes (a : Allocator) (n : Int) (h : (alloc a n).2 = none) :
    (alloc a n).1.free_list.nodes = a.free_list.nodes ∧
      (alloc a n).1.free_list.fresh = a.free_list.fresh := by
  rw [alloc_fst_of_none a n h, search_fst_of_none _ _ ((alloc_snd_none a n).mp h)]
  exact ⟨rfl, rfl⟩

theorem ptr_inj (F : List Freenode) (hnd : (F.map Freenode.ptr).Nodup) (x y : Freenode)
    (hx : x ∈ F) (hy : y ∈ F) (h : x.ptr = y.ptr) : x = y :=
  List.inj_on_of_nodup_map hnd hx hy h

theorem mem_eraseP_ptr (p : Ptr) :
    ∀ F : List Freenode, (F.map Freenode.ptr).Nodup → (∃ c ∈ F, c.ptr = p) →
      ∀ x ∈ F.eraseP (fun c => c.ptr == p), x ∈ F ∧ x.ptr ≠ p := by
  intro F
  induction F with
  | nil => intro _ h; simp at h
  | cons a t ih =>
    intro hnd hex x hx
    rw [List.map_cons, List.nodup_cons] at hnd
    by_cases ha : a.ptr = p
    · have : (a :: t).eraseP (fun c => c.ptr == p) = t := by simp [List.eraseP_cons, ha]
      rw [this] at hx
      refine ⟨List.mem_cons_of_mem _ hx, ?_⟩
      intro hxp
      exact hnd.1 (List.mem_map.mpr ⟨x, hx, by rw [hxp, ha]⟩)
    · have : (a :: t).eraseP (fun c => c.ptr == p) = a :: t.eraseP (fun c => c.ptr == p) := by
        simp [List.eraseP_cons, ha]
      rw [this] at hx
      rcases List.mem_cons.mp hx with rfl | hx
      · exact ⟨List.mem_cons_self _ _, ha⟩
      · obtain ⟨c, hc, hcp⟩ := hex
        have hct : c ∈ t := by
          rcases List.mem_cons.mp hc with rfl | hc
          · exact absurd hcp ha
          · exact hc
        have := ih hnd.2 ⟨c, hct, hcp⟩ x hx
        exact ⟨List.mem_cons_of_mem _ this.1, this.2⟩

theorem map_ptr_shrinkAt (p : Ptr) (k : Int) (F : List Freenode) :
    (F.map (shrinkAt p k)).map Freenode.ptr = F.map Freenode.ptr := by
  rw [List.map_map]
  apply List.map_congr_left
  intro x _
  simp only [Function.comp, shrinkAt]
  split_ifs <;> rfl

/-! ## Shape of the list after `insertNode` -/

theorem dropWhile_ge (a : Int) :
    ∀ F : List Freenode, F.Pairwise Before → (∀ c ∈ F, 0 < c.size) →
      ∀ y ∈ F.dropWhile (fun c => decide (c.addr < a)), a ≤ y.addr := by
  intro F
  induction F with
  | nil => intro _ _ y hy; simp at hy
  | cons h t ih =>
    intro hs hp y hy
    rw [List.pairwise_cons] at hs
    by_cases hlt : h.addr < a
    · rw [List.dropWhile_cons_of_pos (by simpa using hlt)] at hy
      exact ih hs.2 (fun c hc => hp c (List.mem_cons_of_mem _ hc)) y hy
    · rw [List.dropWhile_cons_of_neg (by simpa using hlt)] at hy
      rcases List.mem_cons.mp hy with rfl | hy
      · omega
      · have h1 := hs.1 y hy
        have h2 := hp h (List.mem_cons_self _ _)
        unfold Before at h1
        omega

theorem mergeNext_strict (node : Freenode) (after : List Freenode)
    (h : ∀ y ∈ after, node.addr + node.size < y.addr) :
    mergeNext node after = (node, after, 0) := by
  cases after with
  | nil => rfl
  | cons n rest =>
    have := h n (List.mem_cons_self _ _)
    have hne : ¬ node.addr + node.size = n.addr := by omega
    simp [mergeNext, hne]

theorem mergePrev_cases (before : List Freenode) (newNode : Freenode) :
    (mergePrev before newNode = (before, newNode, 0) ∧
        ∀ p, before.getLast? = some p → p.addr + p.size ≠ newNode.addr) ∨
      ∃ init p, before = init ++ [p] ∧ p.addr + p.size = newNode.addr ∧
        mergePrev before newNode
          = (init, { p with size := p.size + newNode.size }, -1) := by
  unfold mergePrev
  cases hl : before.getLast? with
  | none => left; exact ⟨rfl, by intro p hp; simp at hp⟩
  | some p =>
    by_cases hadj : p.addr + p.size = newNode.addr
    · right
      refine ⟨before.dropLast, p, (List.dropLast_append_getLast? p hl).symm, hadj, ?_⟩
      simp [hadj]
    · left
      refine ⟨by simp [hadj], ?_⟩
      intro q hq
      simp only [Option.some.injEq] at hq
      subst hq
      exact hadj

theorem insertNode_cons (list : Freelist) (a sz : Int) (hne : list.nodes ≠ []) :
    insertNode list a sz =
      { nodes :=
          (mergePrev (list.nodes.takeWhile (fun c => decide (c.addr < a)))
              ⟨list.fresh, a, sz⟩).1 ++
            (mergeNext (mergePrev (list.nodes.takeWhile (fun c => decide (c.addr < a)))
                ⟨list.fresh, a, sz⟩).2.1
              (list.nodes.dropWhile (fun c => decide (c.addr < a)))).1 ::
            (mergeNext (mergePrev (list.nodes.takeWhile (fun c => decide (c.addr < a)))
                ⟨list.fresh, a, sz⟩).2.1
              (list.nodes.dropWhile (fun c => decide (c.addr < a)))).2.1
        last_searched :=
          match list.last_searched with
          | none => none
          | some q =>
            match ((mergePrev (list.nodes.takeWhile (fun c => decide (c.addr < a)))
                ⟨list.fresh, a, sz⟩).1 ++
              (mergeNext (mergePrev (list.nodes.takeWhile (fun c => decide (c.addr < a)))
                  ⟨list.fresh, a, sz⟩).2.1
                (list.nodes.dropWhile (fun c => decide (c.addr < a)))).1 ::
              (mergeNext (mergePrev (list.nodes.takeWhile (fun c => decide (c.addr < a)))
                  ⟨list.fresh, a, sz⟩).2.1
                (list.nodes.dropWhile (fun c => decide (c.addr < a)))).2.1).find?
              (fun c => c.ptr == q) with
            | some qc =>
              if (mergeNext (mergePrev (list.nodes.takeWhile (fun c => decide (c.addr < a)))
                    ⟨list.fresh, a, sz⟩).2.1
                  (list.nodes.dropWhile (fun c => decide (c.addr < a)))).1.addr < qc.addr
              then some (mergeNext (mergePrev (list.nodes.takeWhile (fun c => decide (c.addr < a)))
                    ⟨list.fresh, a, sz⟩).2.1
                  (list.nodes.dropWhile (fun c => decide (c.addr < a)))).1.ptr
              else some q
            | none => some q
        length := list.length + 1 +
          (mergePrev (list.nodes.takeWhile (fun c => decide (c.addr < a)))
              ⟨list.fresh, a, sz⟩).2.2 +
          (mergeNext (mergePrev (list.nodes.takeWhile (fun c => decide (c.addr < a)))
                ⟨list.fresh, a, sz⟩).2.1
              (list.nodes.dropWhile (fun c => decide (c.addr < a)))).2.2
        fresh := list.fresh + 1 } := by
  unfold insertNode
  split
  · rename_i h
    exact absurd h hne
  · rfl

/-- Inserting `[a, a + sz)` into a sorted, gap-separated list all of whose cells
end at or before `a` or begin strictly after `a + sz`: the result is again
sorted and gap-separated, and each of its cells is an old cell, the new region,
or the predecessor grown by the new region. -/
theorem insertNode_strict (list : Freelist) (a sz : Int) (hsz : 0 < sz)
    (hnd : (list.nodes.map Freenode.ptr).Nodup)
    (hfr : ∀ c ∈ list.nodes, c.ptr < list.fresh)
    (hs : list.nodes.Pairwise Before) (hp : ∀ c ∈ list.nodes, 0 < c.size)
    (hfree : ∀ x ∈ list.nodes, x.addr + x.size ≤ a ∨ a + sz < x.addr) :
    ((insertNode list a sz).nodes.map Freenode.ptr).Nodup ∧
      (∀ c ∈ (insertNode list a sz).nodes, c.ptr < (insertNode list a sz).fresh) ∧
      (insertNode list a sz).nodes.Pairwise Before ∧
      (∀ c ∈ (insertNode list a sz).nodes, 0 < c.size) ∧
      (∀ y ∈ (insertNode list a sz).nodes, y ∈ list.nodes ∨ (y.addr = a ∧ y.size = sz) ∨
        ∃ p ∈ list.nodes, p.addr + p.size = a ∧ y.addr = p.addr ∧ y.size = p.size + sz) := by
  by_cases hne : list.nodes = []
  · have : insertNode list a sz
        = { list with nodes := [⟨list.fresh, a, sz⟩], fresh := list.fresh + 1 } := by
      unfold insertNode
      rw [hne]
    rw [this]
    refine ⟨by simp, ?_, by simp, ?_, ?_⟩
    · intro c hc
      rw [List.mem_singleton.mp hc]
      exact Nat.lt_succ_self _
    · intro c hc
      rw [List.mem_singleton.mp hc]
      exact hsz
    · intro c hc
      rw [List.mem_singleton.mp hc]
      exact Or.inr (Or.inl ⟨rfl, rfl⟩)
  · rw [insertNode_cons list a sz hne]
    simp only []
    have hF : list.nodes.takeWhile (fun c => decide (c.addr < a)) ++
        list.nodes.dropWhile (fun c => decide (c.addr < a)) = list.nodes :=
      List.takeWhile_append_dropWhile _ _
    generalize hbdef : list.nodes.takeWhile (fun c => decide (c.addr < a)) = before at hF ⊢
    generalize hadef : list.nodes.dropWhile (fun c => decide (c.addr < a)) = after at hF ⊢
    have hbmem : ∀ x ∈ before, x ∈ list.nodes := by
      intro x hx; rw [← hF]; exact List.mem_append_left _ hx
    have hamem : ∀ x ∈ after, x ∈ list.nodes := by
      intro x hx; rw [← hF]; exact List.mem_append_right _ hx
    have hb : ∀ x ∈ before, x.addr + x.size ≤ a ∧ x.addr < a := by
      intro x hx
      have h1 : x.addr < a := by
        rw [← hbdef] at hx
        simpa using List.mem_takeWhile_imp hx
      have h2 := hfree x (hbmem x hx)
      omega
    have ha : ∀ y ∈ after, a + sz < y.addr := by
      intro y hy
      have h1 : a ≤ y.addr := by
        rw [← hadef] at hy
        exact dropWhile_ge a list.nodes hs hp y hy
      have h2 := hfree y (hamem y hy)
      have h3 := hp y (hamem y hy)
      omega
    have hs2 := hs
    rw [← hF, List.pairwise_append] at hs2
    obtain ⟨hsb, hsa, hsba⟩ := hs2
    rcases mergePrev_cases before ⟨list.fresh, a, sz⟩ with ⟨hmp, hlast⟩ | ⟨init, p, hbe, hadj, hmp⟩
    · -- no merge with the predecessor
      rw [hmp]
      simp only []
      rw [mergeNext_strict _ after (fun y hy => ha y hy)]
      simp only []
      have hstrict : ∀ x ∈ before, x.addr + x.size < a := by
        intro x hx
        rcases List.eq_nil_or_concat before with hnil | ⟨L, b, hL⟩
        · rw [hnil] at hx; simp at hx
        · rw [List.concat_eq_append] at hL
          have hlb : before.getLast? = some b := by rw [hL]; simp
          have hb1 := hlast b hlb
          simp only at hb1
          rw [hL] at hx
          rcases List.mem_append.mp hx with hxL | hxb
          · rw [hL, List.pairwise_append] at hsb
            have h1 := hsb.2.2 x hxL b (by simp)
            have h2 := (hb b (by rw [hL]; simp)).2
            have h3 := hp b (hbmem b (by rw [hL]; simp))
            unfold Before at h1
            omega
          · simp only [List.mem_singleton] at hxb
            subst hxb
            have h2 := (hb x (by rw [hL]; simp)).1
            omega
      refine ⟨?_, ?_, ?_, ?_, ?_⟩
      · rw [List.map_append, List.map_cons, List.nodup_middle, List.nodup_cons,
          ← List.map_append, hF]
        refine ⟨?_, hnd⟩
        intro hmem
        obtain ⟨c, hc, hcp⟩ := List.mem_map.mp hmem
        have := hfr c hc
        simp only at hcp
        rw [hcp] at this
        exact Nat.lt_irrefl _ this
      · intro c hc
        rcases List.mem_append.mp hc with h | h
        · exact Nat.lt_succ_of_lt (hfr c (hbmem c h))
        · rcases List.mem_cons.mp h with rfl | h
          · exact Nat.lt_succ_self _
          · exact Nat.lt_succ_of_lt (hfr c (hamem c h))
      · rw [List.pairwise_append]
        refine ⟨hsb, List.pairwise_cons.mpr ⟨fun y hy => ha y hy, hsa⟩, ?_⟩
        intro x hx y hy
        rcases List.mem_cons.mp hy with rfl | hy
        · exact hstrict x hx
        · exact hsba x hx y hy
      · intro c hc
        rcases List.mem_append.mp hc with h | h
        · exact hp c (hbmem c h)
        · rcases List.mem_cons.mp h with rfl | h
          · exact hsz
          · exact hp c (hamem c h)
      · intro y hy
        rcases List.mem_append.mp hy with h | h
        · exact Or.inl (hbmem y h)
        · rcases List.mem_cons.mp h with rfl | h
          · exact Or.inr (Or.inl ⟨rfl, rfl⟩)
          · exact Or.inl (hamem y h)
    · -- the predecessor `p` absorbs the new region
      rw [hmp]
      simp only []
      have hpmem : p ∈ list.nodes := hbmem p (by rw [hbe]; simp)
      have himem : ∀ x ∈ init, x ∈ list.nodes := by
        intro x hx; exact hbmem x (by rw [hbe]; exact List.mem_append_left _ hx)
      simp only at hadj
      rw [mergeNext_strict _ after (fun y hy => by have := ha y hy; simp only; omega)]
      simp only []
      rw [hbe, List.pairwise_append] at hsb
      refine ⟨?_, ?_, ?_, ?_, ?_⟩
      · have : (init ++ ({ p with size := p.size + sz } : Freenode) :: after).map Freenode.ptr
            = list.nodes.map Freenode.ptr := by
          rw [← hF, hbe]
          simp
        rw [this]
        exact hnd
      · intro c hc
        rcases List.mem_append.mp hc with h | h
        · exact Nat.lt_succ_of_lt (hfr c (himem c h))
        · rcases List.mem_cons.mp h with rfl | h
          · exact Nat.lt_succ_of_lt (hfr p hpmem)
          · exact Nat.lt_succ_of_lt (hfr c (hamem c h))
      · rw [List.pairwise_append]
        refine ⟨hsb.1, List.pairwise_cons.mpr ⟨fun y hy => ?_, hsa⟩, ?_⟩
        · have := ha y hy
          unfold Before
          simp only
          omega
        · intro x hx y hy
          rcases List.mem_cons.mp hy with rfl | hy
          · exact hsb.2.2 x hx p (by simp)
          · exact hsba x (by rw [hbe]; exact List.mem_append_left _ hx) y hy
      · intro c hc
        rcases List.mem_append.mp hc with h | h
        · exact hp c (himem c h)
        · rcases List.mem_cons.mp h with rfl | h
          · have := hp p hpmem
            simp only
            omega
          · exact hp c (hamem c h)
      · intro y hy
        rcases List.mem_append.mp hy with h | h
        · exact Or.inl (himem y h)
        · rcases List.mem_cons.mp h with rfl | h
          · exact Or.inr (Or.inr ⟨p, hpmem, hadj, rfl, rfl⟩)
          · exact Or.inl (hamem y h)

/-! ## The invariant of the reachable states -/

theorem shrinkAt_cases (p : Ptr) (k : Int) (y : Freenode) :
    (y.ptr ≠ p ∧ shrinkAt p k y = y) ∨
      (y.ptr = p ∧ shrinkAt p k y = ⟨y.ptr, y.addr + k, y.size - k⟩) := by
  unfold shrinkAt
  by_cases h : y.ptr = p
  · right; simp [h]
  · left; simp [h]

theorem before_total (F : List Freenode) (hs : F.Pairwise Before) (x y : Freenode)
    (hx : x ∈ F) (hy : y ∈ F) (hne : x ≠ y) : Before x y ∨ Before y x := by
  have h1 : F.Pairwise (fun u v => Before u v ∨ Before v u) := hs.imp Or.inl
  exact List.Pairwise.forall (fun u v h => h.symm) h1 hx hy hne

theorem pairwise_eraseIdx (R : (Int × Header) → (Int × Header) → Prop)
    (hsymm : ∀ u v, R u v → R v u) :
    ∀ (l : List (Int × Header)) (k : Nat) (e : Int × Header), l.Pairwise R →
      l[k]? = some e → ∀ f ∈ l.eraseIdx k, R f e := by
  intro l
  induction l with
  | nil => intro k e _ h; simp at h
  | cons x t ih =>
    intro k e hp hk f hf
    rw [List.pairwise_cons] at hp
    cases k with
    | zero =>
      simp only [List.getElem?_cons_zero, Option.some.injEq] at hk
      subst hk
      simp only [List.eraseIdx_cons_zero] at hf
      exact hsymm _ _ (hp.1 f hf)
    | succ k =>
      simp only [List.getElem?_cons_succ] at hk
      simp only [List.eraseIdx_cons_succ] at hf
      rcases List.mem_cons.mp hf with rfl | hf
      · exact hp.1 e (List.getElem?_mem hk)
      · exact ih k e hp.2 hk f hf

theorem step_alloc (s s1 : Sys) (n : Int) (h : step s (Op.alloc n) = some s1) :
    s1.allocator = (alloc s.allocator n).1 ∧
      (((alloc s.allocator n).2 = none ∧ s1.live = s.live) ∨
        ∃ hd, (alloc s.allocator n).2 = some hd ∧ s1.live = s.live ++ [(n, hd)]) := by
  unfold step at h
  rcases ha : alloc s.allocator n with ⟨a, _ | hd⟩
  · simp only [ha, Option.some.injEq] at h
    subst h
    exact ⟨rfl, Or.inl ⟨rfl, rfl⟩⟩
  · simp only [ha, Option.some.injEq] at h
    subst h
    exact ⟨rfl, Or.inr ⟨hd, rfl, rfl⟩⟩

theorem step_free (s s1 : Sys) (k : Nat) (h : step s (Op.free k) = some s1) :
    ∃ e, s.live[k]? = some e ∧ s1.allocator = free s.allocator e.2 ∧
      s1.live = s.live.eraseIdx k := by
  unfold step at h
  cases he : s.live[k]? with
  | none => simp [he] at h
  | some e =>
    simp only [he, Option.some.injEq] at h
    subst h
    exact ⟨e, rfl, rfl, rfl⟩

theorem inv_start (base size : Int) (h : 0 < size) : Inv (start base size) where
  nodup := by simp [start, init_allocator, init_freelist]
  fresh := by simp [start, init_allocator, init_freelist]
  sorted := by simp [start, init_allocator, init_freelist]
  pos := by simpa [start, init_allocator, init_freelist] using h
  live_ok := by simp [start]
  live_apart := by simp [start]
  live_free := by simp [start]

theorem inv_free (s s1 : Sys) (k : Nat) (hinv : Inv s) (h : step s (Op.free k) = some s1) :
    Inv s1 := by
  obtain ⟨e, he, hal, hlive⟩ := step_free s s1 k h
  have hemem : e ∈ s.live := List.getElem?_mem he
  obtain ⟨hn, hsize⟩ := hinv.live_ok e hemem
  have hsz : 0 < e.2.size + HEADER_SIZE := by rw [hsize]; decide
  have hfree : ∀ x ∈ s.allocator.free_list.nodes,
      x.addr + x.size ≤ e.2.hdptr ∨ e.2.hdptr + (e.2.size + HEADER_SIZE) < x.addr := by
    intro x hx
    have := hinv.live_free e hemem x hx
    unfold blockFree Apart at this
    omega
  obtain ⟨h1, h2, h3, h4, h5⟩ := insertNode_strict s.allocator.free_list e.2.hdptr
    (e.2.size + HEADER_SIZE) hsz hinv.nodup hinv.fresh hinv.sorted hinv.pos hfree
  have hti : toInt (e.2.size + HEADER_SIZE) = e.2.size + HEADER_SIZE := by
    rw [hsize]; decide
  have hnodes : s1.allocator.free_list
      = insertNode s.allocator.free_list e.2.hdptr (e.2.size + HEADER_SIZE) := by
    rw [hal, ← hti]; rfl
  have hsub : ∀ f ∈ s1.live, f ∈ s.live := by
    intro f hf
    rw [hlive] at hf
    exact List.mem_of_mem_eraseIdx hf
  refine ⟨by rw [hnodes]; exact h1, by rw [hnodes]; exact h2, by rw [hnodes]; exact h3,
    by rw [hnodes]; exact h4, fun f hf => hinv.live_ok f (hsub f hf), ?_, ?_⟩
  · rw [hlive]
    exact hinv.live_apart.sublist (List.eraseIdx_sublist _ _)
  · intro f hf y hy
    rw [hnodes] at hy
    have hfe : blockApart f e := by
      rw [hlive] at hf
      exact pairwise_eraseIdx blockApart
        (fun u v huv => by unfold blockApart Apart at *; omega)
        s.live k e hinv.live_apart he f hf
    have hfpos := (hinv.live_ok f (hsub f hf)).1
    unfold blockApart Apart at hfe
    rcases h5 y hy with hold | ⟨hya, hys⟩ | ⟨p, hp, hpa, hya, hys⟩
    · exact hinv.live_free f (hsub f hf) y hold
    · unfold blockFree Apart
      omega
    · have := hinv.live_free f (hsub f hf) p hp
      unfold blockFree Apart at this ⊢
      omega

theorem inv_alloc (s s1 : Sys) (n : Int) (hn : 0 < n) (hmax : n + HEADER_SIZE ≤ INT_MAX)
    (hinv : Inv s) (h : step s (Op.alloc n) = some s1) : Inv s1 := by
  obtain ⟨hal, hcase⟩ := step_alloc s s1 n h
  rcases hcase with ⟨hnone, hlive⟩ | ⟨hd, hsome, hlive⟩
  · obtain ⟨hnodes, hfresh⟩ := alloc_none_nodes _ _ hnone
    rw [← hal] at hnodes hfresh
    exact ⟨by rw [hnodes]; exact hinv.nodup, by rw [hnodes, hfresh]; exact hinv.fresh,
      by rw [hnodes]; exact hinv.sorted, by rw [hnodes]; exact hinv.pos,
      by rw [hlive]; exact hinv.live_ok, by rw [hlive]; exact hinv.live_apart,
      by rw [hlive, hnodes]; exact hinv.live_free⟩
  · obtain ⟨c, hc, hfit, hhd, hfresh, hnodes⟩ := alloc_some _ _ _ hsome
    rw [toInt_header n hn hmax] at hfit hnodes
    rw [← hal] at hnodes hfresh
    have hk : 0 < n + HEADER_SIZE := by
      have : (0 : Int) < HEADER_SIZE := by decide
      omega
    have hcpos := hinv.pos c hc
    -- every new cell lies inside an old cell, and is either an old cell other than `c`
    -- or what is left of `c`
    have hshape : ∀ y ∈ s1.allocator.free_list.nodes,
        (y ∈ s.allocator.free_list.nodes ∧ y ≠ c) ∨
          (y = ⟨c.ptr, c.addr + (n + HEADER_SIZE), c.size - (n + HEADER_SIZE)⟩ ∧
            c.size ≠ n + HEADER_SIZE) := by
      intro y hy
      rw [hnodes] at hy
      split_ifs at hy with hex
      · have := mem_eraseP_ptr c.ptr _ hinv.nodup ⟨c, hc, rfl⟩ y hy
        exact Or.inl ⟨this.1, fun hyc => this.2 (by rw [hyc])⟩
      · obtain ⟨x, hx, rfl⟩ := List.mem_map.mp hy
        rcases shrinkAt_cases c.ptr (n + HEADER_SIZE) x with ⟨hne, heq⟩ | ⟨hpe, heq⟩
        · rw [heq]
          exact Or.inl ⟨hx, fun hxc => hne (by rw [hxc])⟩
        · have hxc := ptr_inj _ hinv.nodup x c hx hc hpe
          subst hxc
          exact Or.inr ⟨heq, hex⟩
    refine ⟨?_, ?_, ?_, ?_, ?_, ?_, ?_⟩
    · rw [hnodes]
      split_ifs
      · exact hinv.nodup.sublist ((List.eraseP_sublist _).map _)
      · rw [map_ptr_shrinkAt]
        exact hinv.nodup
    · intro y hy
      rw [hfresh]
      rcases hshape y hy with ⟨hold, _⟩ | ⟨rfl, _⟩
      · exact hinv.fresh y hold
      · exact hinv.fresh c hc
    · rw [hnodes]
      split_ifs
      · exact hinv.sorted.sublist (List.eraseP_sublist _)
      · rw [List.pairwise_map]
        refine hinv.sorted.imp ?_
        intro x y hxy
        unfold Before at hxy ⊢
        rcases shrinkAt_cases c.ptr (n + HEADER_SIZE) x with ⟨_, hx⟩ | ⟨_, hx⟩ <;>
          rcases shrinkAt_cases c.ptr (n + HEADER_SIZE) y with ⟨_, hy⟩ | ⟨_, hy⟩ <;>
          rw [hx, hy] <;> (try simp only) <;> omega
    · intro y hy
      rcases hshape y hy with ⟨hold, _⟩ | ⟨rfl, hne⟩
      · exact hinv.pos y hold
      · simp only
        omega
    · intro e he
      rw [hlive] at he
      rcases List.mem_append.mp he with he | he
      · exact hinv.live_ok e he
      · rw [List.mem_singleton.mp he, hhd]
        exact ⟨hn, rfl⟩
    · rw [hlive, List.pairwise_append]
      refine ⟨hinv.live_apart, by simp, ?_⟩
      intro e he f hf
      rw [List.mem_singleton.mp hf, hhd]
      have := hinv.live_free e he c hc
      unfold blockFree Apart at this
      unfold blockApart Apart
      simp only
      omega
    · intro e he y hy
      rw [hlive] at he
      rcases List.mem_append.mp he with he | he
      · rcases hshape y hy with ⟨hold, _⟩ | ⟨rfl, _⟩
        · exact hinv.live_free e he y hold
        · have := hinv.live_free e he c hc
          unfold blockFree Apart at this ⊢
          simp only
          omega
      · rw [List.mem_singleton.mp he, hhd]
        unfold blockFree Apart
        simp only
        rcases hshape y hy with ⟨hold, hne⟩ | ⟨rfl, _⟩
        · have := before_total _ hinv.sorted y c hold hc hne
          have hy0 := hinv.pos y hold
          unfold Before at this
          omega
        · simp only
          omega

theorem inv_step (s s1 : Sys) (op : Op) (hpos : op.inRange) (hinv : Inv s)
    (h : step s op = some s1) : Inv s1 := by
  cases op with
  | alloc n => exact inv_alloc s s1 n hpos.1 hpos.2 hinv h
  | free k => exact inv_free s s1 k hinv h

theorem inv_run :
    ∀ (ops : List Op) (s s1 : Sys), (∀ op ∈ ops, op.inRange) → Inv s →
      run s ops = some s1 → Inv s1 := by
  intro ops
  induction ops with
  | nil =>
    intro s s1 _ hinv h
    simp only [run, Option.some.injEq] at h
    subst h
    exact hinv
  | cons op ops ih =>
    intro s s1 hpos hinv h
    simp only [run] at h
    cases hs : step s op with
    | none => simp [hs] at h
    | some s2 =>
      simp only [hs, Option.some_bind] at h
      exact ih s2 s1 (fun o ho => hpos o (List.mem_cons_of_mem _ ho))
        (inv_step s s2 op (hpos op (List.mem_cons_self _ _)) hinv hs) h

theorem demoOps_inRange : ∀ op ∈ demoOps, op.inRange := by
  decide

theorem demo_run : run (start 500 1000) demoOps = some demoState := by
  decide

/-- C4 (counterexample): after `init_allocator(0, 10)` the call
`alloc(2147483647)`, of positive size, succeeds: the free list is
`(-2147483637, 2147483647)`, and the address `0` lies both in the block
`[0, 0 + 2147483647 + HEADER_SIZE)` of the outstanding allocation and in that
free region. -/
theorem overlap_after_wrap :
    (0 : Int) < 10 ∧ (∀ op ∈ [Op.alloc 2147483647], op.positive) ∧
      ∃ s, run (start 0 10) [Op.alloc 2147483647] = some s ∧
        s.allocator.free_list.nodes = [⟨0, -2147483637, 2147483647⟩] ∧
        s.live = [(2147483647, ⟨0, 2147483647, 0⟩)] ∧
        ∃ e ∈ s.live, ∃ c ∈ s.allocator.free_list.nodes, inBlock e 0 ∧ inRegion c 0 := by
  refine ⟨by decide, by decide, _, rfl, by decide, by decide, ?_⟩
  exact ⟨(2147483647, ⟨0, 2147483647, 0⟩), by decide, ⟨0, -2147483637, 2147483647⟩,
    by decide, by decide, by decide⟩

/-- C4 (amended): in every state reached from `init_allocator(base, size)`,
`size > 0`, by `alloc` calls with positive sizes `n`,
`n + HEADER_SIZE ≤ INT_MAX`, and `free` calls on outstanding headers, the blocks
`[hdptr, hdptr + n + HEADER_SIZE)` of the outstanding allocations are pairwise
disjoint and each is disjoint from every free region. -/
theorem no_overlap (base size : Int) (hsize : 0 < size) (ops : List Op) (s : Sys)
    (hpos : ∀ op ∈ ops, op.inRange) (hrun : run (start base size) ops = some s) :
    s.live.Pairwise (fun e f => ∀ z, ¬ (inBlock e z ∧ inBlock f z)) ∧
      ∀ e ∈ s.live, ∀ c ∈ s.allocator.free_list.nodes,
        ∀ z, ¬ (inBlock e z ∧ inRegion c z) := by
  have hinv := inv_run ops _ s hpos (inv_start base size hsize) hrun
  constructor
  · refine hinv.live_apart.imp ?_
    intro e f hef z hz
    unfold blockApart Apart at hef
    unfold inBlock at hz
    omega
  · intro e he c hc z hz
    have := hinv.live_free e he c hc
    unfold blockFree Apart at this
    unfold inBlock inRegion at hz
    omega

/-- C4 (amended) at the state `main` reaches after its third allocation. -/
theorem no_overlap_witness :
    (0 : Int) < 1000 ∧
      demoState.live.Pairwise (fun e f => ∀ z, ¬ (inBlock e z ∧ inBlock f z)) ∧
      ∀ e ∈ demoState.live, ∀ c ∈ demoState.allocator.free_list.nodes,
        ∀ z, ¬ (inBlock e z ∧ inRegion c z) :=
  ⟨by decide, no_overlap 500 1000 (by decide) demoOps demoState demoOps_inRange demo_run⟩

/-- C11 (counterexample): after `init_allocator(500, 1000)`, two `alloc(200)` the
free list is the single remainder region `(924, 576)` in cell 0 with the cursor
on it; after `free(h1)` the cursor is on cell 1, the region at address 500, and
not on the remainder region. -/
theorem cursor_before_third_alloc :
    (∃ s, run (start 500 1000) [Op.alloc 200, Op.alloc 200] = some s ∧
        s.allocator.free_list.nodes = [⟨0, 924, 576⟩] ∧
        s.allocator.free_list.last_searched = some 0) ∧
      run (start 500 1000) demoPrefix = some demoBefore ∧
      demoBefore.allocator.free_list.nodes = [⟨1, 500, 12⟩, ⟨0, 924, 576⟩] ∧
      demoBefore.allocator.free_list.last_searched = some 1 ∧
      demoBefore.allocator.free_list.last_searched ≠ some 0 := by
  refine ⟨⟨_, rfl, by decide, by decide⟩, by decide, by decide, by decide, by decide⟩

/-- C11 (amended): right before `alloc(100)` the cursor is on the region that
starts at address 500, which `free(h1)` inserted, and on no other region; the
scan of `alloc(100)` begins at that region. -/
theorem third_alloc_scan :
    run (start 500 1000) demoPrefix = some demoBefore ∧
      ∃ c ∈ demoBefore.allocator.free_list.nodes, c.addr = 500 ∧
        demoBefore.allocator.free_list.last_searched = some c.ptr ∧
        (∀ r ∈ demoBefore.allocator.free_list.nodes, r.addr ≠ 500 →
          demoBefore.allocator.free_list.last_searched ≠ some r.ptr) ∧
        (scanOrder demoBefore.allocator.free_list).head? = some c :=
  ⟨by decide, ⟨1, 500, 12⟩, by decide, by decide, by decide, by decide, by decide⟩

/-! ## The counter `length` -/

/-- C16 (evaluation at the failing input): after `init_allocator(0, 112)` the
exact-fit `alloc(100)` empties the list (`length = 0`); `free` of its header then
puts one region back through the empty-list branch of `insertNode`, which
returns before `length++`: one region is reachable from `head` and `length` is
still 0. -/
theorem length_after_empty_insert :
    (∃ s, run (start 0 112) [Op.alloc 100] = some s ∧
        s.allocator.free_list.nodes = [] ∧ s.allocator.free_list.length = 0) ∧
      (∃ s, run (start 0 112) [Op.alloc 100, Op.free 0] = some s ∧
        s.allocator.free_list.nodes.length = 1 ∧ s.allocator.free_list.length = 0) ∧
      (insertNode { nodes := [], last_searched := none, length := 0, fresh := 1 } 0 12).length
        = 0 := by
  refine ⟨⟨_, rfl, by decide, by decide⟩, ⟨_, rfl, by decide, by decide⟩, by decide⟩

/-! ## Frames of `removeNode` and `split` -/

theorem ptr_ne_of_nodup (pre post : List Freenode) (r : Freenode)
    (hnd : ((pre ++ r :: post).map Freenode.ptr).Nodup) :
    (∀ x ∈ pre, x.ptr ≠ r.ptr) ∧ (∀ x ∈ post, x.ptr ≠ r.ptr) ∧
      ∀ x ∈ pre, ∀ y ∈ post, x.ptr ≠ y.ptr := by
  rw [List.map_append, List.map_cons, List.nodup_append] at hnd
  obtain ⟨_, h2, h3⟩ := hnd
  rw [List.nodup_cons] at h2
  refine ⟨?_, ?_, ?_⟩
  · intro x hx he
    exact h3 (List.mem_map.mpr ⟨x, hx, rfl⟩) (by rw [he]; exact List.mem_cons_self _ _)
  · intro x hx he
    exact h2.1 (List.mem_map.mpr ⟨x, hx, he⟩)
  · intro x hx y hy he
    exact h3 (List.mem_map.mpr ⟨x, hx, rfl⟩)
      (List.mem_cons_of_mem _ (List.mem_map.mpr ⟨y, hy, he.symm⟩))

theorem eraseP_ptr_middle (pre post : List Freenode) (r : Freenode)
    (hpre : ∀ x ∈ pre, x.ptr ≠ r.ptr) :
    (pre ++ r :: post).eraseP (fun c => c.ptr == r.ptr) = pre ++ post := by
  rw [List.eraseP_append_right _ (fun b hb => by simpa using hpre b hb)]
  simp [List.eraseP_cons]

theorem map_shrinkAt_middle (pre post : List Freenode) (r : Freenode) (k : Int)
    (hpre : ∀ x ∈ pre, x.ptr ≠ r.ptr) (hpost : ∀ x ∈ post, x.ptr ≠ r.ptr) :
    (pre ++ r :: post).map (shrinkAt r.ptr k)
      = pre ++ ⟨r.ptr, r.addr + k, r.size - k⟩ :: post := by
  have h1 : pre.map (shrinkAt r.ptr k) = pre := by
    conv_rhs => rw [← List.map_id pre]
    apply List.map_congr_left
    intro x hx
    simp [shrinkAt, hpre x hx]
  have h2 : post.map (shrinkAt r.ptr k) = post := by
    conv_rhs => rw [← List.map_id post]
    apply List.map_congr_left
    intro x hx
    simp [shrinkAt, hpost x hx]
  rw [List.map_append, List.map_cons, h1, h2]
  simp [shrinkAt]

/-- C19: on a list `pre ++ R :: post` (its cells are distinct heap cells, so
their addresses `ptr` are pairwise different), `removeNode(list, R)` leaves
`pre ++ post`, decrements `length`, clears the cursor exactly when it pointed to
`R`, and makes `head` the successor of `R` exactly when `R` was the first
region. -/
theorem removeNode_frame (list : Freelist) (pre post : List Freenode) (r : Freenode)
    (hn : list.nodes = pre ++ r :: post)
    (hnd : (list.nodes.map Freenode.ptr).Nodup) :
    (removeNode list r.ptr).nodes = pre ++ post ∧
      (removeNode list r.ptr).length = list.length - 1 ∧
      (list.last_searched = some r.ptr → (removeNode list r.ptr).last_searched = none) ∧
      (list.last_searched ≠ some r.ptr →
        (removeNode list r.ptr).last_searched = list.last_searched) ∧
      ((removeNode list r.ptr).head = post.head?.map Freenode.ptr ↔ pre = []) := by
  rw [hn] at hnd
  obtain ⟨hpre, hpost, hpp⟩ := ptr_ne_of_nodup pre post r hnd
  have hnodes : (removeNode list r.ptr).nodes = pre ++ post := by
    simp only [removeNode, hn]
    exact eraseP_ptr_middle pre post r hpre
  refine ⟨hnodes, rfl, ?_, ?_, ?_⟩
  · intro h
    simp [removeNode, h]
  · intro h
    simp [removeNode, h]
  · unfold Freelist.head
    rw [hnodes]
    constructor
    · intro hh
      cases pre with
      | nil => rfl
      | cons x xs =>
        exfalso
        cases post with
        | nil => simp at hh
        | cons y ys =>
          simp only [List.cons_append, List.head?_cons, Option.map_some',
            Option.some.injEq] at hh
          exact hpp x (List.mem_cons_self _ _) y (List.mem_cons_self _ _) hh
    · intro hp
      rw [hp]
      rfl

/-- C19 at the list `(0, 100), (200, 50), (300, 10)` with the cursor on the
middle region, which is removed. -/
theorem removeNode_frame_witness :
    (removeNode { nodes := [⟨0, 0, 100⟩, ⟨1, 200, 50⟩, ⟨2, 300, 10⟩], last_searched := some 1,
                  length := 3, fresh := 3 } 1).nodes = [⟨0, 0, 100⟩] ++ [⟨2, 300, 10⟩] ∧
      (removeNode { nodes := [⟨0, 0, 100⟩, ⟨1, 200, 50⟩, ⟨2, 300, 10⟩], last_searched := some 1,
                    length := 3, fresh := 3 } 1).length = 3 - 1 ∧
      ((some 1 : Option Ptr) = some 1 →
        (removeNode { nodes := [⟨0, 0, 100⟩, ⟨1, 200, 50⟩, ⟨2, 300, 10⟩],
                      last_searched := some 1, length := 3, fresh := 3 } 1).last_searched
          = none) ∧
      ((some 1 : Option Ptr) ≠ some 1 →
        (removeNode { nodes := [⟨0, 0, 100⟩, ⟨1, 200, 50⟩, ⟨2, 300, 10⟩],
                      last_searched := some 1, length := 3, fresh := 3 } 1).last_searched
          = some 1) ∧
      ((removeNode { nodes := [⟨0, 0, 100⟩, ⟨1, 200, 50⟩, ⟨2, 300, 10⟩], last_searched := some 1,
                     length := 3, fresh := 3 } 1).head
          = [(⟨2, 300, 10⟩ : Freenode)].head?.map Freenode.ptr ↔
        [(⟨0, 0, 100⟩ : Freenode)] = []) :=
  removeNode_frame
    { nodes := [⟨0, 0, 100⟩, ⟨1, 200, 50⟩, ⟨2, 300, 10⟩], last_searched := some 1,
      length := 3, fresh := 3 }
    [⟨0, 0, 100⟩] [⟨2, 300, 10⟩] ⟨1, 200, 50⟩ rfl (by decide)

theorem covered_append (l1 l2 : List Freenode) (z : Int) :
    Covered (l1 ++ l2) z ↔ Covered l1 z ∨ Covered l2 z := by
  unfold Covered
  constructor
  · rintro ⟨c, hc, hz⟩
    rcases List.mem_append.mp hc with h | h
    · exact Or.inl ⟨c, h, hz⟩
    · exact Or.inr ⟨c, h, hz⟩
  · rintro (⟨c, hc, hz⟩ | ⟨c, hc, hz⟩)
    · exact ⟨c, List.mem_append_left _ hc, hz⟩
    · exact ⟨c, List.mem_append_right _ hc, hz⟩

theorem covered_cons (c : Freenode) (l : List Freenode) (z : Int) :
    Covered (c :: l) z ↔ inRegion c z ∨ Covered l z := by
  unfold Covered
  constructor
  · rintro ⟨d, hd, hz⟩
    rcases List.mem_cons.mp hd with rfl | h
    · exact Or.inl hz
    · exact Or.inr ⟨d, h, hz⟩
  · rintro (hz | ⟨d, hd, hz⟩)
    · exact ⟨c, List.mem_cons_self _ _, hz⟩
    · exact ⟨d, List.mem_cons_of_mem _ hd, hz⟩

theorem covered_nil (z : Int) : ¬ Covered [] z := by
  rintro ⟨c, hc, _⟩
  simp at hc

theorem pairwise_of_wellFormed :
    ∀ l : List Freenode, WellFormed l → l.Pairwise Before := by
  intro l
  induction l with
  | nil => intro _; exact List.Pairwise.nil
  | cons x t ih =>
    intro hw
    have hwt : WellFormed t :=
      ⟨fun i a b ha hb => hw.1 (i + 1) a b (by simpa using ha) (by simpa using hb),
        fun c hc => hw.2 c (List.mem_cons_of_mem _ hc)⟩
    have hpt := ih hwt
    refine List.pairwise_cons.mpr ⟨?_, hpt⟩
    intro y hy
    cases t with
    | nil => simp at hy
    | cons y0 t1 =>
      have h0 : x.addr + x.size < y0.addr := hw.1 0 x y0 (by simp) (by simp)
      rcases List.mem_cons.mp hy with rfl | hy1
      · exact h0
      · have h1 := (List.pairwise_cons.mp hpt).1 y hy1
        have h2 := hw.2 y0 (by simp)
        unfold Before at h1 ⊢
        omega

theorem wellFormed_of_pairwise (l : List Freenode) (hs : l.Pairwise Before)
    (hp : ∀ c ∈ l, 0 < c.size) : WellFormed l := by
  refine ⟨?_, hp⟩
  intro i a b ha hb
  obtain ⟨hi, rfl⟩ := List.getElem?_eq_some.mp ha
  obtain ⟨hj, rfl⟩ := List.getElem?_eq_some.mp hb
  exact List.pairwise_iff_getElem.mp hs i (i + 1) hi hj (Nat.lt_succ_self i)

theorem mergeNext_cases (node : Freenode) (after : List Freenode) :
    (mergeNext node after = (node, after, 0) ∧
        ∀ n, after.head? = some n → node.addr + node.size ≠ n.addr) ∨
      ∃ n rest, after = n :: rest ∧ node.addr + node.size = n.addr ∧
        mergeNext node after = ({ node with size := node.size + n.size }, rest, -1) := by
  cases after with
  | nil => left; exact ⟨rfl, by intro n hn; simp at hn⟩
  | cons n rest =>
    by_cases hadj : node.addr + node.size = n.addr
    · right
      exact ⟨n, rest, rfl, hadj, by simp [mergeNext, hadj]⟩
    · left
      refine ⟨by simp [mergeNext, hadj], ?_⟩
      intro m hm
      simp only [List.head?_cons, Option.some.injEq] at hm
      subst hm
      exact hadj

/-- What the merge with the predecessor leaves: the cells up to and including
the surviving cell are gap-separated, the surviving cell ends at `a + sz`, and
together they cover what the cells before covered plus `[a, a + sz)`. -/
theorem mergePrev_spec (before : List Freenode) (fr : Ptr) (a sz : Int) (hsz : 0 < sz)
    (hs : before.Pairwise Before) (hp : ∀ c ∈ before, 0 < c.size)
    (hb : ∀ x ∈ before, x.addr + x.size ≤ a) :
    ((mergePrev before ⟨fr, a, sz⟩).1 ++ [(mergePrev before ⟨fr, a, sz⟩).2.1]).Pairwise Before ∧
      (mergePrev before ⟨fr, a, sz⟩).2.1.addr + (mergePrev before ⟨fr, a, sz⟩).2.1.size
        = a + sz ∧
      0 < (mergePrev before ⟨fr, a, sz⟩).2.1.size ∧
      (mergePrev before ⟨fr, a, sz⟩).2.1.addr ≤ a ∧
      (∀ y ∈ (mergePrev before ⟨fr, a, sz⟩).1, y ∈ before) ∧
      (∀ x ∈ before, x ∈ (mergePrev before ⟨fr, a, sz⟩).1 ∨
        x.ptr = (mergePrev before ⟨fr, a, sz⟩).2.1.ptr) ∧
      (∀ z, Covered ((mergePrev before ⟨fr, a, sz⟩).1 ++
            [(mergePrev before ⟨fr, a, sz⟩).2.1]) z ↔
          Covered before z ∨ (a ≤ z ∧ z < a + sz)) ∧
      ((((mergePrev before ⟨fr, a, sz⟩).1 ++
            [(mergePrev before ⟨fr, a, sz⟩).2.1]).map Freenode.size).sum
          = (before.map Freenode.size).sum + sz) ∧
      ((((mergePrev before ⟨fr, a, sz⟩).1 ++
              [(mergePrev before ⟨fr, a, sz⟩).2.1]).map Freenode.ptr
            = before.map Freenode.ptr ++ [fr] ∧
          (mergePrev before ⟨fr, a, sz⟩).2.2 = 0) ∨
        ((((mergePrev before ⟨fr, a, sz⟩).1 ++
              [(mergePrev before ⟨fr, a, sz⟩).2.1]).map Freenode.ptr
            = before.map Freenode.ptr) ∧
          (mergePrev before ⟨fr, a, sz⟩).2.2 = -1)) := by
  rcases mergePrev_cases before ⟨fr, a, sz⟩ with ⟨hmp, hlast⟩ | ⟨init, p, hbe, hadj, hmp⟩
  · rw [hmp]
    simp only []
    have hstrict : ∀ x ∈ before, x.addr + x.size < a := by
      intro x hx
      rcases List.eq_nil_or_concat before with hnil | ⟨L, b, hL⟩
      · rw [hnil] at hx; simp at hx
      · rw [List.concat_eq_append] at hL
        have hlb : before.getLast? = some b := by rw [hL]; simp
        have hb1 := hlast b hlb
        simp only at hb1
        rw [hL] at hx
        rcases List.mem_append.mp hx with hxL | hxb
        · rw [hL, List.pairwise_append] at hs
          have h1 := hs.2.2 x hxL b (by simp)
          have h2 := hb b (by rw [hL]; simp)
          have h3 := hp b (by rw [hL]; simp)
          unfold Before at h1
          omega
        · simp only [List.mem_singleton] at hxb
          subst hxb
          have h2 := hb x (by rw [hL]; simp)
          omega
    refine ⟨?_, by trivial, hsz, le_refl _, fun y hy => hy, fun x hx => Or.inl hx, ?_, ?_, ?_⟩
    · rw [List.pairwise_append]
      refine ⟨hs, by simp, ?_⟩
      intro x hx y hy
      rw [List.mem_singleton.mp hy]
      exact hstrict x hx
    · intro z
      rw [covered_append, covered_cons]
      unfold inRegion
      simp only
      constructor
      · rintro (h | h | h)
        · exact Or.inl h
        · exact Or.inr h
        · exact absurd h (covered_nil z)
      · rintro (h | h)
        · exact Or.inl h
        · exact Or.inr (Or.inl h)
    · simp
    · left
      exact ⟨by simp, by trivial⟩
  · rw [hmp]
    simp only [] at hadj ⊢
    have hpmem : p ∈ before := by rw [hbe]; simp
    have hppos := hp p hpmem
    rw [hbe, List.pairwise_append] at hs
    refine ⟨?_, by omega, by omega, by omega, ?_, ?_, ?_, ?_, ?_⟩
    · rw [List.pairwise_append]
      refine ⟨hs.1, by simp, ?_⟩
      intro x hx y hy
      rw [List.mem_singleton.mp hy]
      exact hs.2.2 x hx p (by simp)
    · intro y hy
      rw [hbe]
      exact List.mem_append_left _ hy
    · intro x hx
      rw [hbe] at hx
      rcases List.mem_append.mp hx with h | h
      · exact Or.inl h
      · rw [List.mem_singleton.mp h]
        exact Or.inr rfl
    · intro z
      rw [hbe, covered_append, covered_append, covered_cons, covered_cons]
      unfold inRegion
      simp only
      constructor
      · rintro (h | h | h)
        · exact Or.inl (Or.inl h)
        · by_cases hz : z < p.addr + p.size
          · exact Or.inl (Or.inr (Or.inl ⟨h.1, hz⟩))
          · exact Or.inr ⟨by omega, by omega⟩
        · exact absurd h (covered_nil z)
      · rintro ((h | h | h) | h)
        · exact Or.inl h
        · exact Or.inr (Or.inl ⟨h.1, by omega⟩)
        · exact absurd h (covered_nil z)
        · exact Or.inr (Or.inl ⟨by omega, by omega⟩)
    · rw [hbe]
      simp only [List.map_append, List.map_cons, List.map_nil, List.sum_append, List.sum_cons,
        List.sum_nil]
      ring
    · right
      refine ⟨?_, by trivial⟩
      rw [hbe]
      simp

/-- What the merge with the successor leaves. -/
theorem mergeNext_spec (node : Freenode) (after : List Freenode) (hn : 0 < node.size)
    (hs : after.Pairwise Before) (hp : ∀ c ∈ after, 0 < c.size)
    (ha : ∀ y ∈ after, node.addr + node.size ≤ y.addr) :
    ((mergeNext node after).1 :: (mergeNext node after).2.1).Pairwise Before ∧
      (mergeNext node after).1.addr = node.addr ∧
      (mergeNext node after).1.ptr = node.ptr ∧
      0 < (mergeNext node after).1.size ∧
      (∀ y ∈ (mergeNext node after).2.1, y ∈ after) ∧
      (∀ y ∈ after, y ∈ (mergeNext node after).2.1 ∨ node.addr + node.size = y.addr) ∧
      (∀ z, Covered ((mergeNext node after).1 :: (mergeNext node after).2.1) z ↔
          inRegion node z ∨ Covered after z) ∧
      ((((mergeNext node after).1 :: (mergeNext node after).2.1).map Freenode.size).sum
          = node.size + (after.map Freenode.size).sum) ∧
      ((((mergeNext node after).1 :: (mergeNext node after).2.1).map Freenode.ptr).Sublist
          (node.ptr :: after.map Freenode.ptr)) ∧
      (((mergeNext node after).2.1.length : Int) = after.length + (mergeNext node after).2.2) := by
  rcases mergeNext_cases node after with ⟨hmn, hhead⟩ | ⟨n, rest, haf, hadj, hmn⟩
  · rw [hmn]
    simp only []
    have hstrict : ∀ y ∈ after, node.addr + node.size < y.addr := by
      intro y hy
      cases after with
      | nil => simp at hy
      | cons n rest =>
        have h0 := hhead n rfl
        have h1 := ha n (List.mem_cons_self _ _)
        rcases List.mem_cons.mp hy with rfl | hy1
        · omega
        · have h2 := (List.pairwise_cons.mp hs).1 y hy1
          have h3 := hp n (List.mem_cons_self _ _)
          unfold Before at h2
          omega
    refine ⟨List.pairwise_cons.mpr ⟨fun y hy => hstrict y hy, hs⟩, by trivial, by trivial, hn,
      fun y hy => hy, fun y hy => Or.inl hy, ?_, ?_, List.Sublist.refl _, by simp⟩
    · intro z
      rw [covered_cons]
    · simp
  · rw [hmn]
    simp only []
    subst haf
    have hnpos := hp n (List.mem_cons_self _ _)
    rw [List.pairwise_cons] at hs
    refine ⟨?_, by trivial, by trivial, by omega, fun y hy => List.mem_cons_of_mem _ hy, ?_, ?_, ?_, ?_, ?_⟩
    · refine List.pairwise_cons.mpr ⟨?_, hs.2⟩
      intro y hy
      have := hs.1 y hy
      unfold Before at this ⊢
      simp only
      omega
    · intro y hy
      rcases List.mem_cons.mp hy with rfl | h
      · exact Or.inr hadj
      · exact Or.inl h
    · intro z
      rw [covered_cons, covered_cons]
      unfold inRegion
      simp only
      constructor
      · rintro (h | h)
        · by_cases hz : z < node.addr + node.size
          · exact Or.inl ⟨h.1, hz⟩
          · exact Or.inr (Or.inl ⟨by omega, by omega⟩)
        · exact Or.inr (Or.inr h)
      · rintro (h | h | h)
        · exact Or.inl ⟨h.1, by omega⟩
        · exact Or.inl ⟨by omega, by omega⟩
        · exact Or.inr h
    · simp only [List.map_cons, List.sum_cons]
      ring
    · simp only [List.map_cons]
      exact List.Sublist.cons₂ _ (List.sublist_cons_self _ _)
    · simp only [List.length_cons]
      push_cast
      ring

/-- The general postcondition of `insertNode` on a gap-separated list and a
region `[a, a + sz)` that meets none of its cells: the result is gap-separated
with positive sizes, covers the old cells plus the region, and its sizes sum to
the old sum plus `sz`. -/
theorem insertNode_general (list : Freelist) (a sz : Int) (hsz : 0 < sz)
    (hs : list.nodes.Pairwise Before) (hp : ∀ c ∈ list.nodes, 0 < c.size)
    (hfree : ∀ x ∈ list.nodes, x.addr + x.size ≤ a ∨ a + sz ≤ x.addr) :
    (insertNode list a sz).nodes.Pairwise Before ∧
      (∀ c ∈ (insertNode list a sz).nodes, 0 < c.size) ∧
      (∀ z, Covered (insertNode list a sz).nodes z ↔
        Covered list.nodes z ∨ (a ≤ z ∧ z < a + sz)) ∧
      ((insertNode list a sz).nodes.map Freenode.size).sum
        = (list.nodes.map Freenode.size).sum + sz := by
  by_cases hne : list.nodes = []
  · have : insertNode list a sz
        = { list with nodes := [⟨list.fresh, a, sz⟩], fresh := list.fresh + 1 } := by
      unfold insertNode
      rw [hne]
    rw [this, hne]
    refine ⟨by simp, ?_, ?_, by simp⟩
    · intro c hc
      rw [List.mem_singleton.mp hc]
      exact hsz
    · intro z
      rw [covered_cons]
      unfold inRegion
      simp only
      constructor
      · rintro (h | h)
        · exact Or.inr h
        · exact absurd h (covered_nil z)
      · rintro (h | h)
        · exact absurd h (covered_nil z)
        · exact Or.inl h
  · rw [insertNode_cons list a sz hne]
    simp only []
    have hF : list.nodes.takeWhile (fun c => decide (c.addr < a)) ++
        list.nodes.dropWhile (fun c => decide (c.addr < a)) = list.nodes :=
      List.takeWhile_append_dropWhile _ _
    have hbx : ∀ x ∈ list.nodes.takeWhile (fun c => decide (c.addr < a)), x.addr < a := by
      intro x hx
      simpa using List.mem_takeWhile_imp hx
    have hax : ∀ y ∈ list.nodes.dropWhile (fun c => decide (c.addr < a)), a ≤ y.addr :=
      dropWhile_ge a list.nodes hs hp
    generalize list.nodes.takeWhile (fun c => decide (c.addr < a)) = before at hF hbx ⊢
    generalize list.nodes.dropWhile (fun c => decide (c.addr < a)) = after at hF hax ⊢
    have hbmem : ∀ x ∈ before, x ∈ list.nodes := by
      intro x hx; rw [← hF]; exact List.mem_append_left _ hx
    have hamem : ∀ x ∈ after, x ∈ list.nodes := by
      intro x hx; rw [← hF]; exact List.mem_append_right _ hx
    have hb : ∀ x ∈ before, x.addr + x.size ≤ a := by
      intro x hx
      have h1 := hbx x hx
      have h2 := hfree x (hbmem x hx)
      omega
    have ha : ∀ y ∈ after, a + sz ≤ y.addr := by
      intro y hy
      have h1 := hax y hy
      have h2 := hfree y (hamem y hy)
      have h3 := hp y (hamem y hy)
      omega
    have hs2 := hs
    rw [← hF, List.pairwise_append] at hs2
    obtain ⟨hsb, hsa, hsba⟩ := hs2
    obtain ⟨A1, A2, A3, _, A5, _, A7, A8, _⟩ := mergePrev_spec before list.fresh a sz hsz hsb
      (fun c hc => hp c (hbmem c hc)) hb
    generalize mergePrev before ⟨list.fresh, a, sz⟩ = mp at A1 A2 A3 A5 A7 A8 ⊢
    obtain ⟨b1, n1, d1⟩ := mp
    simp only [] at A1 A2 A3 A5 A7 A8 ⊢
    obtain ⟨B1, B2, _, B4, B5, _, B7, B8, _, _⟩ := mergeNext_spec n1 after A3 hsa
      (fun c hc => hp c (hamem c hc)) (fun y hy => by rw [A2]; exact ha y hy)
    generalize mergeNext n1 after = mn at B1 B2 B4 B5 B7 B8 ⊢
    obtain ⟨n2, a2, d2⟩ := mn
    simp only [] at B1 B2 B4 B5 B7 B8 ⊢
    rw [List.pairwise_append] at A1
    refine ⟨?_, ?_, ?_, ?_⟩
    · rw [List.pairwise_append]
      refine ⟨A1.1, B1, ?_⟩
      intro x hx y hy
      rcases List.mem_cons.mp hy with rfl | hy
      · have := A1.2.2 x hx n1 (by simp)
        unfold Before at this ⊢
        omega
      · exact hsba x (A5 x hx) y (B5 y hy)
    · intro c hc
      rcases List.mem_append.mp hc with h | h
      · exact hp c (hbmem c (A5 c h))
      · rcases List.mem_cons.mp h with rfl | h
        · exact B4
        · exact hp c (hamem c (B5 c h))
    · intro z
      have hA := A7 z
      rw [covered_append, covered_cons] at hA
      have hnil := covered_nil z
      have hcov : Covered list.nodes z ↔ Covered before z ∨ Covered after z := by
        rw [← hF, covered_append]
      rw [covered_append, B7, hcov]
      constructor
      · rintro (h | h | h)
        · rcases hA.mp (Or.inl h) with h1 | h1
          · exact Or.inl (Or.inl h1)
          · exact Or.inr h1
        · rcases hA.mp (Or.inr (Or.inl h)) with h1 | h1
          · exact Or.inl (Or.inl h1)
          · exact Or.inr h1
        · exact Or.inl (Or.inr h)
      · rintro ((h | h) | h)
        · rcases hA.mpr (Or.inl h) with h1 | h1 | h1
          · exact Or.inl h1
          · exact Or.inr (Or.inl h1)
          · exact absurd h1 hnil
        · exact Or.inr (Or.inr h)
        · rcases hA.mpr (Or.inr h) with h1 | h1 | h1
          · exact Or.inl h1
          · exact Or.inr (Or.inl h1)
          · exact absurd h1 hnil
    · have hsum : (list.nodes.map Freenode.size).sum
          = (before.map Freenode.size).sum + (after.map Freenode.size).sum := by
        rw [← hF, List.map_append, List.sum_append]
      rw [List.map_append, List.sum_append] at A8
      simp only [List.map_cons, List.map_nil, List.sum_cons, List.sum_nil] at A8
      rw [List.map_append, List.sum_append, B8, hsum]
      clear hsum B7 A7 B1 A1 hsba hsa hsb ha hb hamem hbmem hax hbx hF hfree hp hs hne
      omega

/-! ## `insertNode` on lists that are only ascending and non-adjacent -/

theorem nonAdjacent_iff_chain :
    ∀ l : List Freenode, NonAdjacent l ↔ l.Chain' NotTouching := by
  intro l
  induction l with
  | nil =>
    constructor
    · intro _; exact List.chain'_nil
    · intro _ i a b ha _; simp at ha
  | cons x t ih =>
    cases t with
    | nil =>
      constructor
      · intro _; exact List.chain'_singleton x
      · intro _ i a b _ hb; simp at hb
    | cons y t =>
      rw [List.chain'_cons, ← ih]
      constructor
      · intro h
        refine ⟨h 0 x y (by simp) (by simp), ?_⟩
        intro i a b ha hb
        exact h (i + 1) a b (by simpa using ha) (by simpa using hb)
      · rintro ⟨hxy, h⟩ i a b ha hb
        cases i with
        | zero =>
          simp only [List.getElem?_cons_zero, Option.some.injEq] at ha
          simp only [Nat.zero_add, List.getElem?_cons_succ, List.getElem?_cons_zero,
            Option.some.injEq] at hb
          subst ha hb
          exact hxy
        | succ i =>
          exact h i a b (by simpa using ha) (by simpa using hb)

theorem ascending_of_wellFormed (l : List Freenode) (hw : WellFormed l) : Ascending l := by
  unfold Ascending
  refine (pairwise_of_wellFormed l hw).imp_of_mem ?_
  intro x y hx _ hxy
  have := hw.2 x hx
  unfold Before at hxy
  omega

theorem nonAdjacent_of_wellFormed (l : List Freenode) (hw : WellFormed l) : NonAdjacent l := by
  intro i a b ha hb
  have := hw.1 i a b ha hb
  omega

theorem dropWhile_ge_asc (a : Int) :
    ∀ F : List Freenode, Ascending F →
      ∀ y ∈ F.dropWhile (fun c => decide (c.addr < a)), a ≤ y.addr := by
  intro F
  induction F with
  | nil => intro _ y hy; simp at hy
  | cons h t ih =>
    intro hs y hy
    unfold Ascending at hs ih
    rw [List.pairwise_cons] at hs
    by_cases hlt : h.addr < a
    · rw [List.dropWhile_cons_of_pos (by simpa using hlt)] at hy
      exact ih hs.2 y hy
    · rw [List.dropWhile_cons_of_neg (by simpa using hlt)] at hy
      rcases List.mem_cons.mp hy with rfl | hy
      · omega
      · have h1 := hs.1 y hy
        omega

/-- What the merge with the predecessor covers, whatever the order of the
cells. -/
theorem mergePrev_cover (before : List Freenode) (fr : Ptr) (a sz : Int) (hsz : 0 < sz)
    (hp : ∀ c ∈ before, 0 < c.size) :
    (mergePrev before ⟨fr, a, sz⟩).2.1.addr + (mergePrev before ⟨fr, a, sz⟩).2.1.size
        = a + sz ∧
      0 < (mergePrev before ⟨fr, a, sz⟩).2.1.size ∧
      (mergePrev before ⟨fr, a, sz⟩).2.1.addr ≤ a ∧
      (∀ y ∈ (mergePrev before ⟨fr, a, sz⟩).1, y ∈ before) ∧
      (∀ z, Covered ((mergePrev before ⟨fr, a, sz⟩).1 ++
            [(mergePrev before ⟨fr, a, sz⟩).2.1]) z ↔
          Covered before z ∨ (a ≤ z ∧ z < a + sz)) ∧
      ((((mergePrev before ⟨fr, a, sz⟩).1 ++
            [(mergePrev before ⟨fr, a, sz⟩).2.1]).map Freenode.size).sum
          = (before.map Freenode.size).sum + sz) := by
  rcases mergePrev_cases before ⟨fr, a, sz⟩ with ⟨hmp, _⟩ | ⟨init, p, hbe, hadj, hmp⟩
  · rw [hmp]
    simp only []
    refine ⟨by trivial, hsz, le_refl _, fun y hy => hy, ?_, ?_⟩
    · intro z
      rw [covered_append, covered_cons]
      unfold inRegion
      simp only
      constructor
      · rintro (h | h | h)
        · exact Or.inl h
        · exact Or.inr h
        · exact absurd h (covered_nil z)
      · rintro (h | h)
        · exact Or.inl h
        · exact Or.inr (Or.inl h)
    · simp
  · rw [hmp]
    simp only [] at hadj ⊢
    have hpmem : p ∈ before := by rw [hbe]; simp
    have hppos := hp p hpmem
    refine ⟨by omega, by omega, by omega, ?_, ?_, ?_⟩
    · intro y hy
      rw [hbe]
      exact List.mem_append_left _ hy
    · intro z
      rw [hbe, covered_append, covered_append, covered_cons, covered_cons]
      unfold inRegion
      simp only
      constructor
      · rintro (h | h | h)
        · exact Or.inl (Or.inl h)
        · by_cases hz : z < p.addr + p.size
          · exact Or.inl (Or.inr (Or.inl ⟨h.1, hz⟩))
          · exact Or.inr ⟨by omega, by omega⟩
        · exact absurd h (covered_nil z)
      · rintro ((h | h | h) | h)
        · exact Or.inl h
        · exact Or.inr (Or.inl ⟨h.1, by omega⟩)
        · exact absurd h (covered_nil z)
        · exact Or.inr (Or.inl ⟨by omega, by omega⟩)
    · rw [hbe]
      simp only [List.map_append, List.map_cons, List.map_nil, List.sum_append, List.sum_cons,
        List.sum_nil]
      ring

/-- What the merge with the successor covers, whatever the order of the cells. -/
theorem mergeNext_cover (node : Freenode) (after : List Freenode) (hn : 0 < node.size)
    (hp : ∀ c ∈ after, 0 < c.size) :
    (mergeNext node after).1.addr = node.addr ∧
      0 < (mergeNext node after).1.size ∧
      (∀ y ∈ (mergeNext node after).2.1, y ∈ after) ∧
      (∀ z, Covered ((mergeNext node after).1 :: (mergeNext node after).2.1) z ↔
          inRegion node z ∨ Covered after z) ∧
      ((((mergeNext node after).1 :: (mergeNext node after).2.1).map Freenode.size).sum
          = node.size + (after.map Freenode.size).sum) := by
  rcases mergeNext_cases node after with ⟨hmn, _⟩ | ⟨n, rest, haf, hadj, hmn⟩
  · rw [hmn]
    simp only []
    refine ⟨by trivial, hn, fun y hy => hy, ?_, by simp⟩
    intro z
    rw [covered_cons]
  · rw [hmn]
    simp only []
    subst haf
    have hnpos := hp n (List.mem_cons_self _ _)
    refine ⟨by trivial, by omega, fun y hy => List.mem_cons_of_mem _ hy, ?_, ?_⟩
    · intro z
      rw [covered_cons, covered_cons]
      unfold inRegion
      simp only
      constructor
      · rintro (h | h)
        · by_cases hz : z < node.addr + node.size
          · exact Or.inl ⟨h.1, hz⟩
          · exact Or.inr (Or.inl ⟨by omega, by omega⟩)
        · exact Or.inr (Or.inr h)
      · rintro (h | h | h)
        · exact Or.inl ⟨h.1, by omega⟩
        · exact Or.inl ⟨by omega, by omega⟩
        · exact Or.inr h
    · simp only [List.map_cons, List.sum_cons]
      ring

theorem mergePrev_weak (before : List Freenode) (fr : Ptr) (a sz : Int)
    (hasc : Ascending before) (hna : before.Chain' NotTouching)
    (hbx : ∀ x ∈ before, x.addr < a) :
    Ascending ((mergePrev before ⟨fr, a, sz⟩).1 ++ [(mergePrev before ⟨fr, a, sz⟩).2.1]) ∧
      ((mergePrev before ⟨fr, a, sz⟩).1 ++
        [(mergePrev before ⟨fr, a, sz⟩).2.1]).Chain' NotTouching := by
  unfold Ascending at hasc ⊢
  rcases mergePrev_cases before ⟨fr, a, sz⟩ with ⟨hmp, hlast⟩ | ⟨init, p, hbe, hadj, hmp⟩
  · rw [hmp]
    simp only []
    constructor
    · rw [List.pairwise_append]
      refine ⟨hasc, by simp, ?_⟩
      intro x hx y hy
      rw [List.mem_singleton.mp hy]
      exact hbx x hx
    · rw [List.chain'_append]
      refine ⟨hna, List.chain'_singleton _, ?_⟩
      intro x hx y hy
      simp only [List.head?_cons, Option.mem_def, Option.some.injEq] at hy
      subst hy
      exact hlast x hx
  · rw [hmp]
    simp only []
    rw [hbe, List.pairwise_append] at hasc
    rw [hbe, List.chain'_append] at hna
    constructor
    · rw [List.pairwise_append]
      refine ⟨hasc.1, by simp, ?_⟩
      intro x hx y hy
      rw [List.mem_singleton.mp hy]
      exact hasc.2.2 x hx p (by simp)
    · rw [List.chain'_append]
      refine ⟨hna.1, List.chain'_singleton _, ?_⟩
      intro x hx y hy
      simp only [List.head?_cons, Option.mem_def, Option.some.injEq] at hy
      subst hy
      exact hna.2.2 x hx p (by simp)

theorem mergeNext_weak (node : Freenode) (after : List Freenode)
    (hasc : Ascending after) (hna : after.Chain' NotTouching)
    (ha : ∀ y ∈ after, node.addr < y.addr) :
    Ascending ((mergeNext node after).1 :: (mergeNext node after).2.1) ∧
      ((mergeNext node after).1 :: (mergeNext node after).2.1).Chain' NotTouching := by
  unfold Ascending at hasc ⊢
  rcases mergeNext_cases node after with ⟨hmn, hhead⟩ | ⟨n, rest, haf, hadj, hmn⟩
  · rw [hmn]
    simp only []
    refine ⟨List.pairwise_cons.mpr ⟨ha, hasc⟩, List.chain'_cons'.mpr ⟨?_, hna⟩⟩
    intro y hy
    exact hhead y hy
  · rw [hmn]
    simp only []
    subst haf
    rw [List.pairwise_cons] at hasc
    rw [List.chain'_cons'] at hna
    refine ⟨List.pairwise_cons.mpr ⟨fun y hy => ha y (List.mem_cons_of_mem _ hy), hasc.2⟩,
      List.chain'_cons'.mpr ⟨?_, hna.2⟩⟩
    intro y hy
    have := hna.1 y hy
    unfold NotTouching at this ⊢
    simp only
    omega

/-- The postcondition of `insertNode` on a list that is ascending, non-adjacent
and of positive sizes, and a region `[a, a + sz)` that meets none of its
cells. -/
theorem insertNode_weak (list : Freelist) (a sz : Int) (hsz : 0 < sz)
    (hasc : Ascending list.nodes) (hna : list.nodes.Chain' NotTouching)
    (hp : ∀ c ∈ list.nodes, 0 < c.size)
    (hfree : ∀ x ∈ list.nodes, x.addr + x.size ≤ a ∨ a + sz ≤ x.addr) :
    Ascending (insertNode list a sz).nodes ∧
      (insertNode list a sz).nodes.Chain' NotTouching ∧
      (∀ c ∈ (insertNode list a sz).nodes, 0 < c.size) ∧
      (∀ z, Covered (insertNode list a sz).nodes z ↔
        Covered list.nodes z ∨ (a ≤ z ∧ z < a + sz)) ∧
      ((insertNode list a sz).nodes.map Freenode.size).sum
        = (list.nodes.map Freenode.size).sum + sz := by
  by_cases hne : list.nodes = []
  · have : insertNode list a sz
        = { list with nodes := [⟨list.fresh, a, sz⟩], fresh := list.fresh + 1 } := by
      unfold insertNode
      rw [hne]
    rw [this, hne]
    refine ⟨by simp [Ascending], List.chain'_singleton _, ?_, ?_, by simp⟩
    · intro c hc
      rw [List.mem_singleton.mp hc]
      exact hsz
    · intro z
      rw [covered_cons]
      unfold inRegion
      simp only
      constructor
      · rintro (h | h)
        · exact Or.inr h
        · exact absurd h (covered_nil z)
      · rintro (h | h)
        · exact absurd h (covered_nil z)
        · exact Or.inl h
  · rw [insertNode_cons list a sz hne]
    simp only []
    have hF : list.nodes.takeWhile (fun c => decide (c.addr < a)) ++
        list.nodes.dropWhile (fun c => decide (c.addr < a)) = list.nodes :=
      List.takeWhile_append_dropWhile _ _
    have hbx : ∀ x ∈ list.nodes.takeWhile (fun c => decide (c.addr < a)), x.addr < a := by
      intro x hx
      simpa using List.mem_takeWhile_imp hx
    have hax : ∀ y ∈ list.nodes.dropWhile (fun c => decide (c.addr < a)), a ≤ y.addr :=
      dropWhile_ge_asc a list.nodes hasc
    generalize list.nodes.takeWhile (fun c => decide (c.addr < a)) = before at hF hbx ⊢
    generalize list.nodes.dropWhile (fun c => decide (c.addr < a)) = after at hF hax ⊢
    have hbmem : ∀ x ∈ before, x ∈ list.nodes := by
      intro x hx; rw [← hF]; exact List.mem_append_left _ hx
    have hamem : ∀ x ∈ after, x ∈ list.nodes := by
      intro x hx; rw [← hF]; exact List.mem_append_right _ hx
    have ha : ∀ y ∈ after, a + sz ≤ y.addr := by
      intro y hy
      have h1 := hax y hy
      have h2 := hfree y (hamem y hy)
      have h3 := hp y (hamem y hy)
      omega
    have hasc2 := hasc
    unfold Ascending at hasc2
    rw [← hF, List.pairwise_append] at hasc2
    obtain ⟨hsb, hsa, _⟩ := hasc2
    have hna2 := hna
    rw [← hF, List.chain'_append] at hna2
    obtain ⟨hnb, hnaft, _⟩ := hna2
    obtain ⟨A2, A3, A4, A5, A7, A8⟩ := mergePrev_cover before list.fresh a sz hsz
      (fun c hc => hp c (hbmem c hc))
    obtain ⟨W1, W2⟩ := mergePrev_weak before list.fresh a sz hsb hnb hbx
    generalize mergePrev before ⟨list.fresh, a, sz⟩ = mp at A2 A3 A4 A5 A7 A8 W1 W2 ⊢
    obtain ⟨b1, n1, d1⟩ := mp
    simp only [] at A2 A3 A4 A5 A7 A8 W1 W2 ⊢
    obtain ⟨B2, B4, B5, B7, B8⟩ := mergeNext_cover n1 after A3 (fun c hc => hp c (hamem c hc))
    obtain ⟨V1, V2⟩ := mergeNext_weak n1 after hsa hnaft
      (fun y hy => by have := ha y hy; omega)
    generalize mergeNext n1 after = mn at B2 B4 B5 B7 B8 V1 V2 ⊢
    obtain ⟨n2, a2, d2⟩ := mn
    simp only [] at B2 B4 B5 B7 B8 V1 V2 ⊢
    unfold Ascending at W1 V1 ⊢
    rw [List.pairwise_append] at W1
    rw [List.chain'_append] at W2
    refine ⟨?_, ?_, ?_, ?_, ?_⟩
    · rw [List.pairwise_append]
      refine ⟨W1.1, V1, ?_⟩
      intro x hx y hy
      rcases List.mem_cons.mp hy with rfl | hy
      · have := W1.2.2 x hx n1 (by simp)
        omega
      · have h1 := hbx x (A5 x hx)
        have h2 := hax y (B5 y hy)
        omega
    · rw [List.chain'_append]
      refine ⟨W2.1, V2, ?_⟩
      intro x hx y hy
      simp only [List.head?_cons, Option.mem_def, Option.some.injEq] at hy
      subst hy
      have := W2.2.2 x hx n1 (by simp)
      unfold NotTouching at this ⊢
      omega
    · intro c hc
      rcases List.mem_append.mp hc with h | h
      · exact hp c (hbmem c (A5 c h))
      · rcases List.mem_cons.mp h with rfl | h
        · exact B4
        · exact hp c (hamem c (B5 c h))
    · intro z
      have hA := A7 z
      rw [covered_append, covered_cons] at hA
      have hnil := covered_nil z
      have hcov : Covered list.nodes z ↔ Covered before z ∨ Covered after z := by
        rw [← hF, covered_append]
      rw [covered_append, B7, hcov]
      constructor
      · rintro (h | h | h)
        · rcases hA.mp (Or.inl h) with h1 | h1
          · exact Or.inl (Or.inl h1)
          · exact Or.inr h1
        · rcases hA.mp (Or.inr (Or.inl h)) with h1 | h1
          · exact Or.inl (Or.inl h1)
          · exact Or.inr h1
        · exact Or.inl (Or.inr h)
      · rintro ((h | h) | h)
        · rcases hA.mpr (Or.inl h) with h1 | h1 | h1
          · exact Or.inl h1
          · exact Or.inr (Or.inl h1)
          · exact absurd h1 hnil
        · exact Or.inr (Or.inr h)
        · rcases hA.mpr (Or.inr h) with h1 | h1 | h1
          · exact Or.inl h1
          · exact Or.inr (Or.inl h1)
          · exact absurd h1 hnil
    · have hsum : (list.nodes.map Freenode.size).sum
          = (before.map Freenode.size).sum + (after.map Freenode.size).sum := by
        rw [← hF, List.map_append, List.sum_append]
      rw [List.map_append, List.sum_append] at A8
      simp only [List.map_cons, List.map_nil, List.sum_cons, List.sum_nil] at A8
      rw [List.map_append, List.sum_append, B8, hsum]
      clear hsum B7 A7 V1 V2 W1 W2 hnaft hnb hsa hsb ha hamem hbmem hax hbx hF hfree hp hna
        hasc hne
      omega

theorem apart_of_disjoint (x : Freenode) (a sz : Int) (hx : 0 < x.size) (hsz : 0 < sz)
    (h : ∀ z, ¬ (inRegion x z ∧ a ≤ z ∧ z < a + sz)) :
    x.addr + x.size ≤ a ∨ a + sz ≤ x.addr := by
  by_cases h1 : x.addr + x.size ≤ a
  · exact Or.inl h1
  · by_cases h2 : a + sz ≤ x.addr
    · exact Or.inr h2
    · exfalso
      by_cases h3 : a ≤ x.addr
      · exact h x.addr ⟨⟨le_refl _, by omega⟩, h3, by omega⟩
      · exact h a ⟨⟨by omega, by omega⟩, le_refl _, by omega⟩

theorem takeWhile_dropWhile_split (p : Freenode → Bool) (s : Freenode)
    (post : List Freenode) (hs : p s = false) :
    ∀ pre : List Freenode, (∀ x ∈ pre, p x = true) →
      (pre ++ s :: post).takeWhile p = pre ∧ (pre ++ s :: post).dropWhile p = s :: post := by
  intro pre
  induction pre with
  | nil =>
    intro _
    simp [List.takeWhile_cons, List.dropWhile_cons, hs]
  | cons x xs ih =>
    intro h
    have hx := h x (List.mem_cons_self _ _)
    have := ih (fun y hy => h y (List.mem_cons_of_mem _ hy))
    simp [List.takeWhile_cons, List.dropWhile_cons, hx, this.1, this.2]

/-- `insertNode` keeps the cursor valid when no cell begins where the inserted
region ends (the successor is not merged away): a predecessor that absorbs the
new region keeps its cell. -/
theorem insertNode_cursorValid (list : Freelist) (a sz : Int) (hsz : 0 < sz)
    (hs : list.nodes.Pairwise Before) (hp : ∀ c ∈ list.nodes, 0 < c.size)
    (hfree : ∀ x ∈ list.nodes, x.addr + x.size ≤ a ∨ a + sz < x.addr)
    (hv : cursorValid list) : cursorValid (insertNode list a sz) := by
  by_cases hne : list.nodes = []
  · have : insertNode list a sz
        = { list with nodes := [⟨list.fresh, a, sz⟩], fresh := list.fresh + 1 } := by
      unfold insertNode
      rw [hne]
    rw [this]
    intro p hpcur
    obtain ⟨c, hc, _⟩ := hv p hpcur
    rw [hne] at hc
    simp at hc
  · rw [insertNode_cons list a sz hne]
    have hF : list.nodes.takeWhile (fun c => decide (c.addr < a)) ++
        list.nodes.dropWhile (fun c => decide (c.addr < a)) = list.nodes :=
      List.takeWhile_append_dropWhile _ _
    have hbx : ∀ x ∈ list.nodes.takeWhile (fun c => decide (c.addr < a)), x.addr < a := by
      intro x hx
      simpa using List.mem_takeWhile_imp hx
    have hax : ∀ y ∈ list.nodes.dropWhile (fun c => decide (c.addr < a)), a ≤ y.addr :=
      dropWhile_ge a list.nodes hs hp
    generalize list.nodes.takeWhile (fun c => decide (c.addr < a)) = before at hF hbx ⊢
    generalize list.nodes.dropWhile (fun c => decide (c.addr < a)) = after at hF hax ⊢
    have hbmem : ∀ x ∈ before, x ∈ list.nodes := by
      intro x hx; rw [← hF]; exact List.mem_append_left _ hx
    have hamem : ∀ x ∈ after, x ∈ list.nodes := by
      intro x hx; rw [← hF]; exact List.mem_append_right _ hx
    have hb : ∀ x ∈ before, x.addr + x.size ≤ a := by
      intro x hx
      have h1 := hbx x hx
      have h2 := hfree x (hbmem x hx)
      omega
    have ha : ∀ y ∈ after, a + sz < y.addr := by
      intro y hy
      have h1 := hax y hy
      have h2 := hfree y (hamem y hy)
      have h3 := hp y (hamem y hy)
      omega
    have hs2 := hs
    rw [← hF, List.pairwise_append] at hs2
    obtain ⟨hsb, hsa, _⟩ := hs2
    obtain ⟨_, A2, A3, _, _, A6, _, _, _⟩ := mergePrev_spec before list.fresh a sz hsz hsb
      (fun c hc => hp c (hbmem c hc)) hb
    generalize mergePrev before ⟨list.fresh, a, sz⟩ = mp at A2 A3 A6 ⊢
    obtain ⟨b1, n1, d1⟩ := mp
    simp only [] at A2 A3 A6 ⊢
    obtain ⟨_, B2, B3, _, _, B6, _, _, _, _⟩ := mergeNext_spec n1 after A3 hsa
      (fun c hc => hp c (hamem c hc)) (fun y hy => by rw [A2]; exact le_of_lt (ha y hy))
    generalize mergeNext n1 after = mn at B2 B3 B6 ⊢
    obtain ⟨n2, a2, d2⟩ := mn
    simp only [] at B2 B3 B6 ⊢
    have hn2 : n2 ∈ b1 ++ n2 :: a2 := by simp
    intro p hpcur
    simp only at hpcur
    cases hq : list.last_searched with
    | none => simp [hq] at hpcur
    | some q =>
      obtain ⟨c0, hc0, hc0q⟩ := hv q hq
      -- the cursor's cell is still in the chain, or its cell absorbed the new region
      have hlive : ∃ m ∈ b1 ++ n2 :: a2, m.ptr = q := by
        rw [← hF] at hc0
        rcases List.mem_append.mp hc0 with hqb | hqa
        · rcases A6 c0 hqb with h1 | h1
          · exact ⟨c0, List.mem_append_left _ h1, hc0q⟩
          · exact ⟨n2, hn2, by rw [B3, ← h1, hc0q]⟩
        · rcases B6 c0 hqa with h1 | h1
          · exact ⟨c0, List.mem_append_right _ (List.mem_cons_of_mem _ h1), hc0q⟩
          · exfalso
            have := ha c0 hqa
            omega
      cases hf : (b1 ++ n2 :: a2).find? (fun c => c.ptr == q) with
      | none =>
        obtain ⟨m, hm, hmq⟩ := hlive
        have := List.find?_eq_none.mp hf m hm
        simp [hmq] at this
      | some qc =>
        simp only [hq, hf] at hpcur
        split_ifs at hpcur with hlt
        · simp only [Option.some.injEq] at hpcur
          exact ⟨n2, hn2, hpcur⟩
        · simp only [Option.some.injEq] at hpcur
          subst hpcur
          exact hlive

theorem alloc_cursorValid (a : Allocator) (n : Int) (hv : cursorValid a.free_list) :
    cursorValid (alloc a n).1.free_list := by
  unfold alloc
  simp only []
  rw [search_eq _ _ hv]
  cases hf : (scanOrder a.free_list).find?
      (fun c => decide (toInt (n + HEADER_SIZE) ≤ c.size)) with
  | none =>
    simp only []
    intro p hp
    simp only at hp
    cases hq : a.free_list.last_searched with
    | some q =>
      simp only [hq, Option.some.injEq] at hp
      subst hp
      exact hv q hq
    | none =>
      simp only [hq, Freelist.head] at hp
      cases hn : a.free_list.nodes with
      | nil => simp [hn] at hp
      | cons h t =>
        simp only [hn, List.head?_cons, Option.map_some', Option.some.injEq] at hp
        exact ⟨h, by simp, hp⟩
  | some c =>
    have hc : c ∈ a.free_list.nodes := (mem_scanOrder _ _).mp (List.mem_of_find?_eq_some hf)
    simp only []
    unfold split
    split_ifs with hex
    · intro p hp
      simp [removeNode] at hp
    · intro p hp
      simp only [Option.some.injEq] at hp
      subst hp
      refine ⟨shrinkAt c.ptr (toInt (n + HEADER_SIZE)) c, List.mem_map.mpr ⟨c, hc, rfl⟩, ?_⟩
      simp [shrinkAt]

theorem cursor_step (s s1 : Sys) (op : Op) (_hpos : op.inRange) (hinv : Inv s)
    (hv : cursorValid s.allocator.free_list) (h : step s op = some s1) :
    cursorValid s1.allocator.free_list := by
  cases op with
  | alloc n =>
    obtain ⟨hal, _⟩ := step_alloc s s1 n h
    rw [hal]
    exact alloc_cursorValid _ _ hv
  | free k =>
    obtain ⟨e, he, hal, _⟩ := step_free s s1 k h
    have hemem : e ∈ s.live := List.getElem?_mem he
    obtain ⟨hn, hsize⟩ := hinv.live_ok e hemem
    have hti : toInt (e.2.size + HEADER_SIZE) = e.2.size + HEADER_SIZE := by
      rw [hsize]; decide
    have hfl : (free s.allocator e.2).free_list
        = insertNode s.allocator.free_list e.2.hdptr (e.2.size + HEADER_SIZE) := by
      rw [← hti]; rfl
    rw [hal, hfl]
    refine insertNode_cursorValid s.allocator.free_list e.2.hdptr (e.2.size + HEADER_SIZE)
      (by rw [hsize]; decide) hinv.sorted hinv.pos ?_ hv
    intro x hx
    have := hinv.live_free e hemem x hx
    have h12 : HEADER_SIZE = 12 := rfl
    unfold blockFree Apart at this
    omega

/-! ## Containment in the managed range -/

theorem bounded_step (lo hi : Int) (s s1 : Sys) (op : Op) (hpos : op.inRange)
    (hinv : Inv s) (hb : Bounded lo hi s) (h : step s op = some s1) : Bounded lo hi s1 := by
  have h12 : HEADER_SIZE = 12 := rfl
  cases op with
  | alloc n =>
    have hn : 0 < n := hpos.1
    obtain ⟨hal, hcase⟩ := step_alloc s s1 n h
    rcases hcase with ⟨hnone, hlive⟩ | ⟨hd, hsome, hlive⟩
    · obtain ⟨hnodes, _⟩ := alloc_none_nodes _ _ hnone
      rw [← hal] at hnodes
      exact ⟨by rw [hnodes]; exact hb.1, by rw [hlive]; exact hb.2⟩
    · obtain ⟨c, hc, hfit, hhd, _, hnodes⟩ := alloc_some _ _ _ hsome
      rw [toInt_header n hn hpos.2] at hfit hnodes
      rw [← hal] at hnodes
      have hcb := hb.1 c hc
      constructor
      · intro y hy
        rw [hnodes] at hy
        split_ifs at hy
        · exact hb.1 y (List.mem_of_mem_eraseP hy)
        · obtain ⟨x, hx, rfl⟩ := List.mem_map.mp hy
          have hxb := hb.1 x hx
          rcases shrinkAt_cases c.ptr (n + HEADER_SIZE) x with ⟨_, heq⟩ | ⟨_, heq⟩
          · rw [heq]; exact hxb
          · rw [heq]
            simp only
            omega
      · intro e he
        rw [hlive] at he
        rcases List.mem_append.mp he with he | he
        · exact hb.2 e he
        · rw [List.mem_singleton.mp he, hhd]
          simp only
          omega
  | free k =>
    obtain ⟨e, he, hal, hlive⟩ := step_free s s1 k h
    have hemem : e ∈ s.live := List.getElem?_mem he
    obtain ⟨hn, hsize⟩ := hinv.live_ok e hemem
    have heb := hb.2 e hemem
    have hfree : ∀ x ∈ s.allocator.free_list.nodes,
        x.addr + x.size ≤ e.2.hdptr ∨ e.2.hdptr + (e.2.size + HEADER_SIZE) < x.addr := by
      intro x hx
      have := hinv.live_free e hemem x hx
      unfold blockFree Apart at this
      omega
    obtain ⟨_, _, _, _, h5⟩ := insertNode_strict s.allocator.free_list e.2.hdptr
      (e.2.size + HEADER_SIZE) (by rw [hsize]; decide) hinv.nodup hinv.fresh hinv.sorted
      hinv.pos hfree
    have hti : toInt (e.2.size + HEADER_SIZE) = e.2.size + HEADER_SIZE := by
      rw [hsize]; decide
    have hfl : (free s.allocator e.2).free_list
        = insertNode s.allocator.free_list e.2.hdptr (e.2.size + HEADER_SIZE) := by
      rw [← hti]; rfl
    constructor
    · intro y hy
      rw [hal, hfl] at hy
      rcases h5 y hy with hold | ⟨hya, hys⟩ | ⟨p, hp, hpa, hya, hys⟩
      · exact hb.1 y hold
      · omega
      · have := hb.1 p hp
        omega
    · intro f hf
      rw [hlive] at hf
      exact hb.2 f (List.mem_of_mem_eraseIdx hf)

theorem good_run (lo hi : Int) :
    ∀ (ops : List Op) (s s1 : Sys), (∀ op ∈ ops, op.inRange) → Inv s → Bounded lo hi s →
      cursorValid s.allocator.free_list → run s ops = some s1 →
      Inv s1 ∧ Bounded lo hi s1 ∧ cursorValid s1.allocator.free_list := by
  intro ops
  induction ops with
  | nil =>
    intro s s1 _ hinv hb hv h
    simp only [run, Option.some.injEq] at h
    subst h
    exact ⟨hinv, hb, hv⟩
  | cons op ops ih =>
    intro s s1 hpos hinv hb hv h
    simp only [run] at h
    cases hs : step s op with
    | none => simp [hs] at h
    | some s2 =>
      simp only [hs, Option.some_bind] at h
      have hop := hpos op (List.mem_cons_self _ _)
      exact ih s2 s1 (fun o ho => hpos o (List.mem_cons_of_mem _ ho))
        (inv_step s s2 op hop hinv hs) (bounded_step lo hi s s2 op hop hinv hb hs)
        (cursor_step s s2 op hop hinv hv hs) h

theorem good_start (base size : Int) (h : 0 < size) :
    Inv (start base size) ∧ Bounded base (base + size) (start base size) ∧
      cursorValid (start base size).allocator.free_list := by
  refine ⟨inv_start base size h, ⟨?_, ?_⟩, ?_⟩
  · intro c hc
    simp only [start, init_allocator, init_freelist, List.mem_singleton] at hc
    rw [hc]
    simp
  · intro e he
    simp [start] at he
  · intro p hp
    simp [start, init_allocator, init_freelist] at hp

/-- Once the loop returns with some fuel, more fuel changes neither its result
nor the positions it examines. -/
theorem searchLoop_mono (nodes : List Freenode) (req : Int) (st : Nat) :
    ∀ (fuel i : Nat) (r : Option Freenode), searchLoop nodes req st fuel i = some r →
      ∀ fuel2, fuel ≤ fuel2 →
        searchLoop nodes req st fuel2 i = some r ∧
          searchTrace nodes req st fuel2 i = searchTrace nodes req st fuel i := by
  intro fuel
  induction fuel with
  | zero => intro i r h; simp [searchLoop] at h
  | succ f ih =>
    intro i r h fuel2 hle
    cases fuel2 with
    | zero => omega
    | succ f2 =>
      unfold searchLoop at h ⊢
      unfold searchTrace
      cases hg : nodes[i]? with
      | none => simp [hg] at h
      | some c =>
        simp only [hg] at h ⊢
        by_cases hfit : c.size ≥ req
        · simp only [hfit, if_true] at h ⊢
          exact ⟨h, trivial⟩
        · simp only [hfit, if_false] at h ⊢
          by_cases hnx : (if i + 1 < nodes.length then i + 1 else 0) = st
          · simp only [hnx, if_true] at h ⊢
            exact ⟨h, trivial⟩
          · simp only [hnx, if_false] at h ⊢
            have := ih _ r h f2 (by omega)
            exact ⟨this.1, by rw [this.2]⟩

theorem searchTrace_before (req : Int) (st : Nat) (rest : List Freenode) (hrest : rest ≠ []) :
    ∀ (mid pre : List Freenode) (fuel : Nat), mid ≠ [] → pre.length + mid.length = st →
      mid.length ≤ fuel →
      ∃ k, k ≤ mid.length ∧
        searchTrace (pre ++ mid ++ rest) req st fuel pre.length = List.range' pre.length k := by
  intro mid
  induction mid with
  | nil => intro pre fuel h; exact absurd rfl h
  | cons c mid ih =>
    intro pre fuel _ hst hfuel
    have hrl : 0 < rest.length := List.length_pos.mpr hrest
    cases fuel with
    | zero => simp at hfuel
    | succ f =>
      have hget : (pre ++ c :: mid ++ rest)[pre.length]? = some c := by
        rw [List.append_assoc, List.getElem?_append_right (Nat.le_refl _)]
        simp
      unfold searchTrace
      simp only [hget]
      by_cases hfit : req ≤ c.size
      · exact ⟨1, by simp, by simp [hfit]⟩
      · have hlt : pre.length + 1 < (pre ++ c :: mid ++ rest).length := by
          simp only [List.length_append, List.length_cons]; omega
        simp only [ge_iff_le, hfit, if_false, hlt, if_true]
        cases mid with
        | nil =>
          have : pre.length + 1 = st := by simpa using hst
          exact ⟨1, by simp, by simp [this]⟩
        | cons d mid =>
          have hne : pre.length + 1 ≠ st := by
            simp only [List.length_cons] at hst; omega
          simp only [hne, if_false]
          obtain ⟨k, hk, htr⟩ := ih (pre ++ [c]) f (by simp)
            (by simp only [List.length_append, List.length_cons, List.length_nil] at hst ⊢; omega)
            (by simp only [List.length_cons] at hfuel ⊢; omega)
          simp only [List.length_append, List.length_cons, List.length_nil, List.append_assoc,
            List.singleton_append, List.cons_append, Nat.zero_add, List.nil_append] at htr
          refine ⟨k + 1, by simp only [List.length_cons] at hk ⊢; omega, ?_⟩
          simp only [List.append_assoc, List.cons_append]
          rw [htr, List.range'_succ]

theorem searchTrace_after (req : Int) (st : Nat) :
    ∀ (suf pre : List Freenode) (fuel : Nat), suf ≠ [] → st ≤ pre.length →
      suf.length + st ≤ fuel →
      ∃ k1 k2, k1 ≤ suf.length ∧ k2 ≤ st ∧
        searchTrace (pre ++ suf) req st fuel pre.length
          = List.range' pre.length k1 ++ List.range' 0 k2 := by
  intro suf
  induction suf with
  | nil => intro pre fuel h; exact absurd rfl h
  | cons c suf ih =>
    intro pre fuel _ hst hfuel
    cases fuel with
    | zero => simp at hfuel
    | succ f =>
      have hget : (pre ++ c :: suf)[pre.length]? = some c := by
        rw [List.getElem?_append_right (Nat.le_refl _)]
        simp
      unfold searchTrace
      simp only [hget]
      by_cases hfit : req ≤ c.size
      · exact ⟨1, 0, by simp, by simp, by simp [hfit]⟩
      · simp only [ge_iff_le, hfit, if_false]
        cases suf with
        | nil =>
          have hlt : ¬ pre.length + 1 < (pre ++ [c]).length := by simp
          simp only [hlt, if_false]
          by_cases h0 : 0 = st
          · exact ⟨1, 0, by simp, by simp, by simp [h0]⟩
          · simp only [h0, if_false]
            obtain ⟨k, hk, hb⟩ := searchTrace_before req st (pre.drop st ++ [c]) (by simp)
              (pre.take st) [] f
              (by
                intro hnil
                have := congrArg List.length hnil
                simp only [List.length_take, List.length_nil] at this
                omega)
              (by simp only [List.length_nil, List.length_take]; omega)
              (by simp only [List.length_take, List.length_cons, List.length_nil] at hfuel ⊢; omega)
            simp only [List.nil_append, List.length_nil] at hb
            rw [← List.append_assoc, List.take_append_drop] at hb
            refine ⟨1, k, by simp, ?_, ?_⟩
            · simp only [List.length_take] at hk
              omega
            · rw [hb]
              simp
        | cons d suf =>
          have hlt : pre.length + 1 < (pre ++ c :: d :: suf).length := by
            simp only [List.length_append, List.length_cons]; omega
          have hne : pre.length + 1 ≠ st := by omega
          simp only [hlt, if_true, hne, if_false]
          obtain ⟨k1, k2, hk1, hk2, htr⟩ := ih (pre ++ [c]) f (by simp)
            (by simp only [List.length_append, List.length_cons, List.length_nil]; omega)
            (by simp only [List.length_cons] at hfuel ⊢; omega)
          simp only [List.length_append, List.length_cons, List.length_nil, List.append_assoc,
            List.singleton_append, Nat.zero_add] at htr
          refine ⟨k1 + 1, k2, by simp only [List.length_cons] at hk1 ⊢; omega, hk2, ?_⟩
          rw [htr, List.range'_succ]
          simp

/-- From a valid start the loop examines pairwise different positions, at most
one per cell. -/
theorem searchTrace_scan (nodes : List Freenode) (req : Int) (st : Nat)
    (hst : st < nodes.length) :
    (searchTrace nodes req st nodes.length st).Nodup ∧
      (searchTrace nodes req st nodes.length st).length ≤ nodes.length ∧
      ∀ i ∈ searchTrace nodes req st nodes.length st, i < nodes.length := by
  have hlen : (nodes.take st).length = st := by
    rw [List.length_take]; omega
  obtain ⟨k1, k2, hk1, hk2, htr⟩ := searchTrace_after req st (nodes.drop st) (nodes.take st)
    nodes.length
    (by
      intro hnil
      have := congrArg List.length hnil
      simp only [List.length_drop, List.length_nil] at this
      omega)
    (by omega)
    (by rw [List.length_drop]; omega)
  rw [List.take_append_drop, hlen] at htr
  rw [List.length_drop] at hk1
  rw [htr]
  refine ⟨?_, ?_, ?_⟩
  · rw [List.nodup_append]
    refine ⟨List.nodup_range' _ _, List.nodup_range' _ _, ?_⟩
    intro x hx1 hx2
    rw [List.mem_range'_1] at hx1 hx2
    omega
  · simp only [List.length_append, List.length_range']
    omega
  · intro i hi
    rcases List.mem_append.mp hi with h | h
    · rw [List.mem_range'_1] at h
      omega
    · rw [List.mem_range'_1] at h
      omega

/-- C18: on a list whose cursor is unset or live, the loop of `search` returns
within one iteration per region (any fuel of at least the number of regions
gives the same result and the same examined positions), the positions it
examines are pairwise different and at most as many as there are regions, and
`search` leaves the regions and `length` as they were. -/
theorem search_terminates (list : Freelist) (req : Int) (hv : cursorValid list) :
    (list.nodes ≠ [] →
        ∃ r, (search list req).2 = r ∧
          ∀ fuel, list.nodes.length ≤ fuel →
            searchLoop list.nodes req (startIndex list) fuel (startIndex list) = some r ∧
            searchTrace list.nodes req (startIndex list) fuel (startIndex list)
              = searchTrace list.nodes req (startIndex list) list.nodes.length
                  (startIndex list)) ∧
      (searchTrace list.nodes req (startIndex list) list.nodes.length
          (startIndex list)).Nodup ∧
      (searchTrace list.nodes req (startIndex list) list.nodes.length
          (startIndex list)).length ≤ list.nodes.length ∧
      (search list req).1.nodes = list.nodes ∧
      (search list req).1.length = list.length := by
  have hs := search_eq list req hv
  have hframe : (search list req).1.nodes = list.nodes ∧
      (search list req).1.length = list.length := by
    rw [hs]
    cases (scanOrder list).find? (fun c => decide (req ≤ c.size)) <;> exact ⟨rfl, rfl⟩
  by_cases hne : list.nodes = []
  · refine ⟨fun h => absurd hne h, ?_, ?_, hframe.1, hframe.2⟩
    · rw [hne]
      simp [searchTrace]
    · rw [hne]
      simp [searchTrace]
  · have hlt := startIndex_lt list hv hne
    have hscan := searchLoop_scan list.nodes req (startIndex list) hlt
    obtain ⟨t1, t2, _⟩ := searchTrace_scan list.nodes req (startIndex list) hlt
    refine ⟨fun _ => ⟨_, ?_, fun fuel hfuel =>
      searchLoop_mono list.nodes req (startIndex list) _ _ _ hscan fuel hfuel⟩,
      t1, t2, hframe.1, hframe.2⟩
    rw [hs]
    unfold scanOrder
    cases (list.nodes.drop (startIndex list) ++ list.nodes.take (startIndex list)).find?
      (fun c => decide (req ≤ c.size)) <;> rfl

/-- C18 at a list of three regions with the cursor on the second and a request
that none of them can hold: the loop examines positions 1, 2, 0. -/
theorem search_terminates_witness :
    (([(⟨0, 0, 100⟩ : Freenode), ⟨1, 200, 50⟩, ⟨2, 300, 10⟩] ≠ []) →
        ∃ r, (search { nodes := [⟨0, 0, 100⟩, ⟨1, 200, 50⟩, ⟨2, 300, 10⟩],
                       last_searched := some 1, length := 3, fresh := 3 } 500).2 = r ∧
          ∀ fuel, [(⟨0, 0, 100⟩ : Freenode), ⟨1, 200, 50⟩, ⟨2, 300, 10⟩].length ≤ fuel →
            searchLoop [⟨0, 0, 100⟩, ⟨1, 200, 50⟩, ⟨2, 300, 10⟩] 500 1 fuel 1 = some r ∧
            searchTrace [⟨0, 0, 100⟩, ⟨1, 200, 50⟩, ⟨2, 300, 10⟩] 500 1 fuel 1
              = [1, 2, 0]) ∧
      ([1, 2, 0] : List Nat).Nodup ∧
      ([1, 2, 0] : List Nat).length ≤ 3 ∧
      (search { nodes := [⟨0, 0, 100⟩, ⟨1, 200, 50⟩, ⟨2, 300, 10⟩],
                last_searched := some 1, length := 3, fresh := 3 } 500).1.nodes
        = [⟨0, 0, 100⟩, ⟨1, 200, 50⟩, ⟨2, 300, 10⟩] ∧
      (search { nodes := [⟨0, 0, 100⟩, ⟨1, 200, 50⟩, ⟨2, 300, 10⟩],
                last_searched := some 1, length := 3, fresh := 3 } 500).1.length = 3 :=
  search_terminates
    { nodes := [⟨0, 0, 100⟩, ⟨1, 200, 50⟩, ⟨2, 300, 10⟩], last_searched := some 1,
      length := 3, fresh := 3 }
    500 (by decide)

end NextFit
